import Mathlib
/-!
Verification development for the Satsify repository: a CNF data model with
structural transforms (cnf_transformer.py), a DPLL solver
(example_sat_solver.py), a goal-oriented heuristic solver
(tests/sat_solver/goal_oriented_sat_solver.py) and a backward clause-targeted
solver (tests/sat_solver/backward_3sat_solver.py), sharing the clause
satisfaction oracle in tests/sat_solver/utils.py.

Python dictionaries mapping variable ids to booleans are embedded as
association lists without duplicate keys; insertion replaces the existing
entry in place or appends a fresh key at the end, matching dict update
semantics. Python integers are Lean Int; a literal is a nonzero signed
integer whose absolute value names a variable. Wall-clock fields of the
statistics dictionaries (time_taken_sec) and the pass-through labels
(test_case_name, output_md_file_path) are omitted from the embedded
statistics records; all counters that the code updates are kept.
Unbounded recursion is embedded with an explicit fuel parameter; an absent
result (none or a dedicated timeout constructor) marks fuel exhaustion, and
sufficiency lemmas below show the fuel chosen by the top-level wrappers can
never run out, so the wrappers compute exactly what the Python recursion
computes.
-/


/-- Clause: a list of literals, interpreted as a disjunction. -/
abbrev Clause := List Int

/-- Partial assignment: association list from variable id to boolean,
embedding a Python dict (no duplicate keys by construction). -/
abbrev Assignment := List (Int × Bool)

/-- Membership test and value lookup for an embedded dict. -/
def lookupA : Assignment → Int → Option Bool
  | [], _ => none
  | (k, v) :: rest, x => if k = x then some v else lookupA rest x

/-- Python dict update d[k] = v: replace the entry in place if the key is
present, otherwise append the new key at the end. -/
def insertA : Assignment → Int → Bool → Assignment
  | [], k, v => [(k, v)]
  | (k', v') :: rest, k, v =>
    if k' = k then (k, v) :: rest else (k', v') :: insertA rest k v

/-- Python del d[k]: remove the entry for key k. -/
def eraseA : Assignment → Int → Assignment
  | [], _ => []
  | (k', v') :: rest, k => if k' = k then rest else (k', v') :: eraseA rest k

/-- Key list of an embedded dict, in iteration order. -/
def keysA (a : Assignment) : List Int := a.map Prod.fst

/-- Variable named by a literal: abs(literal) as an integer. -/
def varOf (l : Int) : Int := (l.natAbs : Int)

/-- Inner condition of is_clause_satisfied (tests/sat_solver/utils.py): the
variable is assigned, and the literal is positive with the variable true or
negative with the variable false. -/
def litSatisfied (a : Assignment) (l : Int) : Bool :=
  match lookupA a (varOf l) with
  | some v => (decide (0 < l) && v) || (decide (l < 0) && !v)
  | none => false

/-- Embeds is_clause_satisfied from tests/sat_solver/utils.py: scan the
literals in order; a literal whose variable is assigned and whose polarity
matches the assigned value satisfies the clause; literals with unassigned
variables are skipped; reaching the end yields False. -/
def is_clause_satisfied : Clause → Assignment → Bool
  | [], _ => false
  | l :: rest, a =>
    if litSatisfied a l then true else is_clause_satisfied rest a

namespace SimpleDPLLSolver

/-- Inner condition of SimpleDPLLSolver._is_satisfied
(example_sat_solver.py): value = assignment[var] fetched, then the polarity
test (literal > 0 and value) or (literal < 0 and not value). -/
def litTrueUnder (a : Assignment) (l : Int) : Bool :=
  match lookupA a (varOf l) with
  | some value => (decide (0 < l) && value) || (decide (l < 0) && !value)
  | none => false

/-- Embeds SimpleDPLLSolver._is_satisfied from example_sat_solver.py: the
DPLL solver's private clause satisfaction check. -/
def is_satisfied : Clause → Assignment → Bool
  | [], _ => false
  | l :: rest, a =>
    if litTrueUnder a l then true else is_satisfied rest a

end SimpleDPLLSolver

/-- Embeds _is_clause_contradiction from goal_oriented_sat_solver.py: every
literal's variable is assigned and every literal evaluates false. -/
def is_clause_contradiction : Clause → Assignment → Bool
  | [], _ => true
  | l :: rest, a =>
    match lookupA a (varOf l) with
    | none => false
    | some v =>
      if (decide (0 < l) && v) || (decide (l < 0) && !v) then false
      else is_clause_contradiction rest a

/-- Embeds _check_for_contradiction from goal_oriented_sat_solver.py: some
clause is a contradiction under the assignments. -/
def check_for_contradiction (cs : List Clause) (a : Assignment) : Bool :=
  cs.any (fun c => is_clause_contradiction c a)

/-- Embeds _get_unsatisfied_clause_indices from goal_oriented_sat_solver.py
(and the inline list comprehension of backward_3sat_solver.py): keep the
currently unsatisfied indices that remain unsatisfied. -/
def get_unsatisfied_clause_indices (cs : List Clause) (a : Assignment)
    (current : List Nat) : List Nat :=
  current.filter (fun i => !is_clause_satisfied (cs.getD i []) a)

/-- Finset of variables occurring in the clause list. -/
def occVarsF (cs : List Clause) : Finset Int :=
  (cs.flatMap (fun c => c.map varOf)).toFinset

/-- Number of variables of the set S still unassigned: the termination
measure of every solver recursion. -/
def unassignedIn (S : Finset Int) (a : Assignment) : Nat :=
  (S.filter (fun v => lookupA a v = none)).card

/-- Claim-side reading of "a literal assigned a value making it true":
positive literal whose variable is assigned true, or negative literal whose
variable is assigned false. -/
def literalMadeTrue (a : Assignment) (l : Int) : Prop :=
  (0 < l ∧ lookupA a (varOf l) = some true) ∨
    (l < 0 ∧ lookupA a (varOf l) = some false)

instance (a : Assignment) (l : Int) : Decidable (literalMadeTrue a l) := by
  unfold literalMadeTrue; infer_instance

namespace SimpleDPLLSolver

/-- Statistics dictionary of SimpleDPLLSolver (example_sat_solver.py). -/
structure Stats where
  decisions : Nat
  unit_propagations : Nat
  conflicts : Nat
  backtracks : Nat
deriving Repr, DecidableEq

/-- Statistics as reset at the start of every solve call. -/
def initStats : Stats := ⟨0, 0, 0, 0⟩

/-- Embeds _find_unit_clause: the first clause that is not satisfied and has
exactly one literal with an unassigned variable; yields that literal (the
source returns the singleton list and its caller takes element 0). -/
def find_unit_clause : List Clause → Assignment → Option Int
  | [], _ => none
  | c :: rest, a =>
    if is_satisfied c a then find_unit_clause rest a
    else
      match c.filter (fun l => (lookupA a (varOf l)).isNone) with
      | [l] => some l
      | _ => find_unit_clause rest a

/-- Set insertion on a list kept without duplicates, in first-occurrence
order. -/
def addIfAbsent (acc : List Int) (v : Int) : List Int :=
  if v ∈ acc then acc else acc ++ [v]

/-- Literal scan of one clause inside _find_pure_literal: collect variables
of unassigned literals of the wanted polarity (positive when posWanted). -/
def polarityVarsInClause (posWanted : Bool) (a : Assignment) :
    Clause → List Int → List Int
  | [], acc => acc
  | l :: rest, acc =>
    if (lookupA a (varOf l)).isNone && (decide (0 < l) == posWanted) then
      polarityVarsInClause posWanted a rest (addIfAbsent acc (varOf l))
    else polarityVarsInClause posWanted a rest acc

/-- Clause scan of _find_pure_literal: skip satisfied clauses, collect the
variable sets positive_vars (posWanted = true) and negative_vars. -/
def polarityVars (posWanted : Bool) : List Clause → Assignment → List Int →
    List Int
  | [], _, acc => acc
  | c :: rest, a, acc =>
    if is_satisfied c a then polarityVars posWanted rest a acc
    else polarityVars posWanted rest a (polarityVarsInClause posWanted a c acc)

/-- Embeds _find_pure_literal: a variable occurring (unassigned, in
unsatisfied clauses) only positively, else only negatively as a negative
literal. CPython iterates the set difference in unspecified order; here
first-occurrence order picks the representative — the theorems below depend
only on the returned pure variable being unassigned and occurring. -/
def find_pure_literal (cs : List Clause) (a : Assignment) : Option Int :=
  match (polarityVars true cs a []).filter
      (fun v => !decide (v ∈ polarityVars false cs a [])) with
  | p :: _ => some p
  | [] =>
    match (polarityVars false cs a []).filter
        (fun v => !decide (v ∈ polarityVars true cs a [])) with
    | q :: _ => some (-q)
    | [] => none

/-- Count increment for var_count dict of _choose_variable, keeping
insertion order. -/
def bumpCount : List (Int × Nat) → Int → List (Int × Nat)
  | [], v => [(v, 1)]
  | (k, n) :: rest, v =>
    if k = v then (k, n + 1) :: rest else (k, n) :: bumpCount rest v

/-- Literal scan of one clause in _choose_variable: count unassigned
variables. -/
def countClauseVars (a : Assignment) : Clause → List (Int × Nat) →
    List (Int × Nat)
  | [], acc => acc
  | l :: rest, acc =>
    if (lookupA a (varOf l)).isNone then
      countClauseVars a rest (bumpCount acc (varOf l))
    else countClauseVars a rest acc

/-- Clause scan of _choose_variable: skip satisfied clauses. -/
def varCounts : List Clause → Assignment → List (Int × Nat) →
    List (Int × Nat)
  | [], _, acc => acc
  | c :: rest, a, acc =>
    if is_satisfied c a then varCounts rest a acc
    else varCounts rest a (countClauseVars a c acc)

/-- Python max(items, key=count): the first item carrying the maximal count
in iteration order. -/
def maxByCount : List (Int × Nat) → Option (Int × Nat)
  | [] => none
  | p :: rest =>
    match maxByCount rest with
    | none => some p
    | some q => if q.2 > p.2 then some q else some p

/-- Embeds _choose_variable: most frequent unassigned variable among
not-yet-satisfied clauses, ties broken by first encounter. -/
def choose_variable (cs : List Clause) (a : Assignment) : Option Int :=
  (maxByCount (varCounts cs a [])).map Prod.fst

/-- Clause loop body of _has_conflict: all literals assigned and false. -/
def clauseFullyFalsified (a : Assignment) : Clause → Bool
  | [] => true
  | l :: rest =>
    match lookupA a (varOf l) with
    | none => false
    | some value =>
      if (decide (0 < l) && value) || (decide (l < 0) && !value) then false
      else clauseFullyFalsified a rest

/-- Embeds _has_conflict: some clause is fully assigned and false. -/
def has_conflict (cs : List Clause) (a : Assignment) : Bool :=
  cs.any (clauseFullyFalsified a)

/-- Embeds _all_satisfied. -/
def all_satisfied (cs : List Clause) (a : Assignment) : Bool :=
  cs.all (fun c => is_satisfied c a)

/-- Termination measure instance for the DPLL recursions. -/
def unassignedCount (cs : List Clause) (a : Assignment) : Nat :=
  unassignedIn (occVarsF cs) a

/-- Outcome of the unit propagation loop: the loop either runs out of fuel
(never happens with the fuel chosen below), detects a conflict, or finishes
with no unit clause left; the final assignment and statistics are the state
of the mutated dict. -/
inductive UPRes where
  | timeout
  | conflict (a : Assignment) (st : Stats)
  | finished (a : Assignment) (st : Stats)
deriving Repr, DecidableEq

/-- Embeds the unit propagation while-loop at the top of _dpll. -/
def unit_propagate : Nat → List Clause → Assignment → Stats → UPRes
  | 0, _, _, _ => .timeout
  | fuel + 1, cs, a, st =>
    match find_unit_clause cs a with
    | none => .finished a st
    | some l =>
      let v := varOf l
      let val := decide (0 < l)
      match lookupA a v with
      | some b =>
        if b ≠ val then .conflict a { st with conflicts := st.conflicts + 1 }
        else
          unit_propagate fuel cs (insertA a v val)
            { st with unit_propagations := st.unit_propagations + 1 }
      | none =>
        unit_propagate fuel cs (insertA a v val)
          { st with unit_propagations := st.unit_propagations + 1 }

/-- Outcome of one _dpll call: the boolean return value together with the
final state of the assignment dict the call received (the source mutates it
in place and passes copies to branch recursions, so a branch recursion's
dict state is discarded by its caller). -/
inductive DRes where
  | timeout
  | result (sat : Bool) (a : Assignment) (st : Stats)
deriving Repr, DecidableEq

/-- Embeds _dpll from example_sat_solver.py. Unit propagation, conflict
check, satisfaction check, pure literal elimination (recursing on the same
dict), then branching: try the chosen variable true then false, each branch
recursion on a copy of the dict (its final state is dropped, only its
boolean is used), deleting the variable when both fail. Statistics live on
self and are threaded through every call. -/
def dpll : Nat → List Clause → Assignment → Stats → DRes
  | 0, _, _, _ => .timeout
  | fuel + 1, cs, a, st =>
    match unit_propagate (unassignedCount cs a + 1) cs a st with
    | .timeout => .timeout
    | .conflict a st => .result false a st
    | .finished a st =>
      if has_conflict cs a then
        .result false a { st with conflicts := st.conflicts + 1 }
      else if all_satisfied cs a then .result true a st
      else
        match find_pure_literal cs a with
        | some p => dpll fuel cs (insertA a (varOf p) (decide (0 < p))) st
        | none =>
          match choose_variable cs a with
          | none => .result true a st
          | some v =>
            let st := { st with decisions := st.decisions + 1 }
            let a1 := insertA a v true
            match dpll fuel cs a1 st with
            | .timeout => .timeout
            | .result true _ st => .result true a1 st
            | .result false _ st =>
              let st := { st with backtracks := st.backtracks + 1 }
              let a2 := insertA a1 v false
              match dpll fuel cs a2 st with
              | .timeout => .timeout
              | .result true _ st => .result true a2 st
              | .result false _ st => .result false (eraseA a2 v) st

/-- Embeds SimpleDPLLSolver.solve: reset statistics, start from the empty
assignment, and return (result, assignment if result else None, stats). The
fuel never runs out (dpll_no_timeout below). -/
def solve (cs : List Clause) : Option (Bool × Option Assignment × Stats) :=
  match dpll (unassignedCount cs [] + 1) cs [] initStats with
  | .timeout => none
  | .result b a st => some (b, if b then some a else none, st)

end SimpleDPLLSolver

/-- Dictionary update for assignment-type maps (variable id to label),
same semantics as insertA. -/
def insertT : List (Int × String) → Int → String → List (Int × String)
  | [], k, v => [(k, v)]
  | (k', v') :: rest, k, v =>
    if k' = k then (k, v) :: rest else (k', v') :: insertT rest k v

/-- Assignment-type map threaded by the goal-oriented solver and built by
the backward solver's completion step. -/
abbrev TypeMap := List (Int × String)

/-- Variables 1..n as the solvers iterate them: range(1, num_variables+1). -/
def scanVars (n : Nat) : List Int :=
  (List.range n).map (fun i => ((i + 1 : Nat) : Int))

namespace Backward

/-- Execution statistics dictionary of solve_3sat_backward
(backward_3sat_solver.py). The wall-clock field and the pass-through labels
are omitted; status starts absent (empty string) and is set at the end. -/
structure Stats where
  recursive_calls : Nat
  backtracks : Nat
  branch_choices_count : Nat
  defaulted_variables : List Int
  status : String
deriving Repr, DecidableEq

/-- Literal loop of _find_solution_recursive: a literal whose variable is
already assigned is skipped — the source distinguishes the inconsistent
case from the consistent case in two separate continue branches, and both
skip uniformly; an unassigned variable is assigned the literal's polarity
on a copy, the unsatisfied list is refiltered and the recursion (passed in
as goNext) continues; exhausting the literals backtracks. -/
def tryLiterals (cs : List Clause)
    (goNext : Assignment → List Nat → Stats → Option (Option Assignment × Stats))
    (a : Assignment) (idxs : List Nat) :
    Stats → Clause → Option (Option Assignment × Stats)
  | st, [] =>
    some (none, { st with backtracks := st.backtracks + 1 })
  | st, l :: ls =>
    let v := varOf l
    let val := decide (0 < l)
    match lookupA a v with
    | some b =>
      if b ≠ val then tryLiterals cs goNext a idxs st ls
      else tryLiterals cs goNext a idxs st ls
    | none =>
      let a' := insertA a v val
      let idxs' := get_unsatisfied_clause_indices cs a' idxs
      match goNext a' idxs' st with
      | none => none
      | some (some sol, st') =>
        some (some sol,
          { st' with branch_choices_count := st'.branch_choices_count + 1 })
      | some (none, st') => tryLiterals cs goNext a idxs st' ls

/-- Embeds _find_solution_recursive from backward_3sat_solver.py: count the
call, succeed when no clause index is left, otherwise target the first
unsatisfied clause and try its literals in order. -/
def findSolutionRec : Nat → List Clause → Assignment → List Nat → Stats →
    Option (Option Assignment × Stats)
  | 0, _, _, _, _ => none
  | fuel + 1, cs, a, idxs, st =>
    let st := { st with recursive_calls := st.recursive_calls + 1 }
    match idxs with
    | [] => some (some a, st)
    | i :: _ =>
      tryLiterals cs (fun a' idxs' st' => findSolutionRec fuel cs a' idxs' st')
        a idxs st (cs.getD i [])

/-- Completion loop of solve_3sat_backward: iterate variables 1..n building
a fresh complete dict, the assignment-type map and the defaulted list. -/
def completeFillAux (sol : Assignment) : List Int → Assignment → TypeMap →
    List Int → Assignment × TypeMap × List Int
  | [], comp, ty, defs => (comp, ty, defs)
  | v :: vs, comp, ty, defs =>
    match lookupA sol v with
    | some b =>
      completeFillAux sol vs (insertA comp v b) (insertT ty v "Branch Set")
        defs
    | none =>
      completeFillAux sol vs (insertA comp v false)
        (insertT ty v "Defaulted") (defs ++ [v])

/-- Embeds solve_3sat_backward from backward_3sat_solver.py: initialize
statistics, make every clause index unsatisfied, run the recursion from the
empty assignment, then either complete the solution over 1..num_variables
(defaulting untouched variables to False) with status SATISFIABLE, or
report None with status UNSATISFIABLE. none = fuel exhausted, which the
sufficiency lemma below rules out. -/
def solve_3sat_backward (num_variables : Nat) (cs : List Clause) :
    Option (Option Assignment × Stats) :=
  match findSolutionRec ((occVarsF cs).card + 1) cs []
      (List.range cs.length) ⟨0, 0, 0, [], ""⟩ with
  | none => none
  | some (some sol, st) =>
    let filled := completeFillAux sol (scanVars num_variables) [] [] []
    some (some filled.1,
      { st with
        status := "SATISFIABLE"
        defaulted_variables := st.defaulted_variables ++ filled.2.2 })
  | some (none, st) => some (none, { st with status := "UNSATISFIABLE" })

end Backward

namespace GoalOriented

/-- Execution statistics dictionary of solve_3sat_goal_oriented
(goal_oriented_sat_solver.py); wall-clock field omitted. -/
structure Stats where
  recursive_calls : Nat
  backtracks_on_branch : Nat
  heuristic_choices_count : Nat
  branch_choices_count : Nat
  defaulted_variables : List Int
deriving Repr, DecidableEq

/-- Embeds _evaluate_variable_assignment: tentatively set the variable,
refilter the unsatisfied indices, count the newly satisfied clauses, check
for contradictions; returns (causes_contradiction, newly_satisfied_count,
remaining_unsatisfied). -/
def evaluate_variable_assignment (v : Int) (val : Bool) (a : Assignment)
    (cs : List Clause) (idxs : List Nat) : Bool × Nat × List Nat :=
  let potential := insertA a v val
  let remaining := get_unsatisfied_clause_indices cs potential idxs
  let newlySatisfied := idxs.length - remaining.length
  let causes := check_for_contradiction cs potential
  (causes, newlySatisfied, remaining)

/-- The heuristic_factor constant set in _recursive_solve_with_heuristic. -/
def heuristic_factor : Nat := 1

/-- Embeds _make_heuristic_decision: force the non-contradicting polarity
when exactly one polarity contradicts; otherwise, when neither contradicts,
force the polarity whose newly-satisfied count exceeds the other's by more
than the factor; otherwise no forced choice. -/
def make_heuristic_decision (v : Int) (tCon fCon : Bool) (tCnt fCnt : Nat)
    (factor : Nat) : Option (Int × Bool) :=
  if !tCon && fCon then some (v, true)
  else if !fCon && tCon then some (v, false)
  else if !tCon && !fCon then
    if tCnt > fCnt + factor then some (v, true)
    else if fCnt > tCnt + factor then some (v, false)
    else none
  else none

/-- Heuristic scan of _recursive_solve_with_heuristic, with
_apply_heuristic_for_variable inlined per variable: skip assigned
variables, evaluate both polarities, and on a forced choice recurse
immediately (goNext is the recursion at the next depth); when the
recursion under a forced choice fails the loop continues with the
remaining variables. -/
def heuristicLoop (cs : List Clause)
    (goNext : Assignment → TypeMap → List Nat → Stats →
      Option (Option (Assignment × TypeMap) × Stats))
    (a : Assignment) (ty : TypeMap) (idxs : List Nat) :
    Stats → List Int → Option (Option (Assignment × TypeMap) × Stats)
  | st, [] => some (none, st)
  | st, v :: vs =>
    if (lookupA a v).isSome then heuristicLoop cs goNext a ty idxs st vs
    else
      let et := evaluate_variable_assignment v true a cs idxs
      let ef := evaluate_variable_assignment v false a cs idxs
      match make_heuristic_decision v et.1 ef.1 et.2.1 ef.2.1
          heuristic_factor with
      | none => heuristicLoop cs goNext a ty idxs st vs
      | some (vf, valf) =>
        let st :=
          { st with
            heuristic_choices_count := st.heuristic_choices_count + 1 }
        let a' := insertA a vf valf
        let ty' := insertT ty vf "Heuristic Set"
        let idxs' := if valf then et.2.2 else ef.2.2
        match goNext a' ty' idxs' st with
        | none => none
        | some (some r, st') => some (some r, st')
        | some (none, st') => heuristicLoop cs goNext a ty idxs st' vs

/-- Embeds _try_branch_on_target_clause: try the target clause's literals
in order, skipping already-assigned variables; assign the polarity making
the literal true, refilter, skip on immediate contradiction (counting a
backtrack), recurse otherwise (goNext is the recursion at the next depth);
exhausting the literals backtracks. -/
def tryBranch (cs : List Clause)
    (goNext : Assignment → TypeMap → List Nat → Stats →
      Option (Option (Assignment × TypeMap) × Stats))
    (a : Assignment) (ty : TypeMap) (idxs : List Nat) :
    Stats → Clause → Option (Option (Assignment × TypeMap) × Stats)
  | st, [] =>
    some (none,
      { st with backtracks_on_branch := st.backtracks_on_branch + 1 })
  | st, l :: ls =>
    let v := varOf l
    if (lookupA a v).isSome then tryBranch cs goNext a ty idxs st ls
    else
      let a' := insertA a v (decide (0 < l))
      let ty' := insertT ty v "Branch Set"
      let idxs' := get_unsatisfied_clause_indices cs a' idxs
      if check_for_contradiction cs a' then
        tryBranch cs goNext a ty idxs
          { st with backtracks_on_branch := st.backtracks_on_branch + 1 } ls
      else
        match goNext a' ty' idxs' st with
        | none => none
        | some (some r, st') => some (some r, st')
        | some (none, st') => tryBranch cs goNext a ty idxs st' ls

/-- Embeds _recursive_solve_with_heuristic from goal_oriented_sat_solver.py:
count the call, succeed when no unsatisfied index is left, run the
heuristic forced-choice scan over variables 1..n, and fall back to
branching on the first unsatisfied clause. -/
def recursiveSolve : Nat → Nat → List Clause → Assignment → TypeMap →
    List Nat → Stats → Option (Option (Assignment × TypeMap) × Stats)
  | 0, _, _, _, _, _, _ => none
  | fuel + 1, n, cs, a, ty, idxs, st =>
    let st := { st with recursive_calls := st.recursive_calls + 1 }
    match idxs with
    | [] => some (some (a, ty), st)
    | i :: _ =>
      match heuristicLoop cs
          (fun a' ty' idxs' st' => recursiveSolve fuel n cs a' ty' idxs' st')
          a ty idxs st (scanVars n) with
      | none => none
      | some (some r, st) => some (some r, st)
      | some (none, st) =>
        let st :=
          { st with branch_choices_count := st.branch_choices_count + 1 }
        tryBranch cs
          (fun a' ty' idxs' st' => recursiveSolve fuel n cs a' ty' idxs' st')
          a ty idxs st (cs.getD i [])

/-- Variable set bounding the goal-oriented recursion: the heuristic
assigns variables from 1..n, the branch step assigns occurring variables. -/
def goalVarSet (n : Nat) (cs : List Clause) : Finset Int :=
  occVarsF cs ∪ (scanVars n).toFinset

/-- Default-fill loop of solve_3sat_goal_oriented: unlike the backward
solver it mutates the search solution dict in place, adding missing
variables of 1..n but keeping every key the search assigned. -/
def fillDefaultsAux : List Int → Assignment → TypeMap → List Int →
    Assignment × TypeMap × List Int
  | [], sol, ty, defs => (sol, ty, defs)
  | v :: vs, sol, ty, defs =>
    match lookupA sol v with
    | some _ => fillDefaultsAux vs sol ty defs
    | none =>
      fillDefaultsAux vs (insertA sol v false) (insertT ty v "Defaulted")
        (defs ++ [v])

/-- Payload handed to write_results_to_md by solve_3sat_goal_oriented. -/
structure Report where
  status : String
  solution : Assignment
  assignment_types : TypeMap
  stats : Stats
deriving Repr, DecidableEq

/-- Embeds the body of solve_3sat_goal_oriented up to the
write_results_to_md call: run the recursion from the empty assignment over
all clause indices, then on success default-fill variables 1..n in the
search's solution dict and report SATISFIABLE, otherwise report
UNSATISFIABLE with an empty solution dict. none = fuel exhausted, which the
sufficiency lemma below rules out. -/
def solveReport (n : Nat) (cs : List Clause) : Option Report :=
  match recursiveSolve ((goalVarSet n cs).card + 1) n cs [] []
      (List.range cs.length) ⟨0, 0, 0, 0, []⟩ with
  | none => none
  | some (some (sol, ty), st) =>
    let filled := fillDefaultsAux (scanVars n) sol ty []
    some ⟨"SATISFIABLE", filled.1, filled.2.1,
      { st with
        defaulted_variables := st.defaulted_variables ++ filled.2.2 }⟩
  | some (none, st) => some ⟨"UNSATISFIABLE", [], [], st⟩

/-- Modelled from the words of claim C7: the scan returns the first
variable in increasing id order yielding a forced choice (the decision rule
itself is the code's make_heuristic_decision), together with the forced
value and the refiltered unsatisfied indices. -/
def first_forced_choice (cs : List Clause) (a : Assignment)
    (idxs : List Nat) : List Int → Option (Int × Bool × List Nat)
  | [] => none
  | v :: vs =>
    if (lookupA a v).isSome then first_forced_choice cs a idxs vs
    else
      let et := evaluate_variable_assignment v true a cs idxs
      let ef := evaluate_variable_assignment v false a cs idxs
      match make_heuristic_decision v et.1 ef.1 et.2.1 ef.2.1
          heuristic_factor with
      | some (vf, valf) => some (vf, valf, if valf then et.2.2 else ef.2.2)
      | none => first_forced_choice cs a idxs vs

/-- Branch fallback of the claim-side model, identical to the code's
_try_branch_on_target_clause (without bookkeeping); goNext is the round
recursion at the next depth. -/
def claimBranchLoop (cs : List Clause)
    (goNext : Assignment → List Nat → Option (Option Assignment))
    (a : Assignment) (idxs : List Nat) :
    Clause → Option (Option Assignment)
  | [] => some none
  | l :: ls =>
    let v := varOf l
    if (lookupA a v).isSome then claimBranchLoop cs goNext a idxs ls
    else
      let a' := insertA a v (decide (0 < l))
      let idxs' := get_unsatisfied_clause_indices cs a' idxs
      if check_for_contradiction cs a' then claimBranchLoop cs goNext a idxs ls
      else
        match goNext a' idxs' with
        | none => none
        | some (some r) => some (some r)
        | some none => claimBranchLoop cs goNext a idxs ls

/-- Modelled from the words of claim C7: a solver round in which "the first
variable in scan order yielding a forced choice is taken and the remaining
variables are not evaluated that round" — the round's decision is the
forced choice alone, so a failure of the recursion beneath it fails the
round; when no variable yields a forced choice the round branches on the
first unsatisfied clause exactly as the code does. Compare with
recursiveSolve, whose scan resumes after a failed forced choice. -/
def claimRoundRec : Nat → Nat → List Clause → Assignment → List Nat →
    Option (Option Assignment)
  | 0, _, _, _, _ => none
  | fuel + 1, n, cs, a, idxs =>
    match idxs with
    | [] => some (some a)
    | i :: _ =>
      match first_forced_choice cs a idxs (scanVars n) with
      | some (vf, valf, idxs') =>
        claimRoundRec fuel n cs (insertA a vf valf) idxs'
      | none =>
        claimBranchLoop cs (fun a' idxs' => claimRoundRec fuel n cs a' idxs')
          a idxs (cs.getD i [])

/-- Top level of the claim-side model of C7, from the empty assignment over
all clause indices. -/
def claimRoundSolve (n : Nat) (cs : List Clause) : Option (Option Assignment) :=
  claimRoundRec ((goalVarSet n cs).card + 1) n cs [] (List.range cs.length)

/-- Embeds the return value of solve_3sat_goal_oriented: the Python
function writes the report to the markdown file and ends without a return
statement, so every invocation returns None — it never returns an
(assignment, statistics) pair. -/
def solve_3sat_goal_oriented (_ : Nat) (_ : List Clause) :
    Option (Assignment × Stats) := none

end GoalOriented

namespace CNFTransformer

/-- Adjacency map: variable id to neighbor set, embedded as an association
list in insertion order whose values are duplicate-free lists (Python sets;
only membership and emptiness are observed below). -/
abbrev AdjMap := List (Int × List Int)

/-- Neighbor addition adjacency[var].add(other); the key is present
whenever the source reaches this call (it is ensured just before the inner
loop), and a missing key leaves the map unchanged. -/
def addNeighbor : AdjMap → Int → Int → AdjMap
  | [], _, _ => []
  | (k, ns) :: rest, v, w =>
    if k = v then (k, if w ∈ ns then ns else ns ++ [w]) :: rest
    else (k, ns) :: addNeighbor rest v w

/-- Key-presence step of to_adjacency_list: if var not in adjacency,
adjacency[var] = set(). -/
def ensureKey (ad : AdjMap) (v : Int) : AdjMap :=
  if v ∈ ad.map Prod.fst then ad else ad ++ [(v, [])]

/-- Inner loop of to_adjacency_list: add every other variable of the
clause as a neighbor of v. -/
def addNeighbors (v : Int) : List Int → AdjMap → AdjMap
  | [], ad => ad
  | w :: ws, ad =>
    addNeighbors v ws (if w ≠ v then addNeighbor ad v w else ad)

/-- Outer loop of to_adjacency_list over the clause's variables. -/
def processClauseVars (allVars : List Int) : List Int → AdjMap → AdjMap
  | [], ad => ad
  | v :: vs, ad =>
    processClauseVars allVars vs (addNeighbors v allVars (ensureKey ad v))

/-- Embeds CNFTransformer.to_adjacency_list from cnf_transformer.py: for
each clause, every variable of the clause becomes a key, and all distinct
co-occurring variables become its neighbors. -/
def to_adjacency_list (cs : List Clause) : AdjMap :=
  cs.foldl (fun ad c => processClauseVars (c.map varOf) (c.map varOf) ad) []

/-- Neighbor set lookup in the adjacency map. -/
def adjLookup : AdjMap → Int → Option (List Int)
  | [], _ => none
  | (k, ns) :: rest, v => if k = v then some ns else adjLookup rest v

/-- Embeds CNFInstance.get_variable_count from cnf_transformer.py: the
number of distinct variables referenced by the clauses. -/
def get_variable_count (cs : List Clause) : Nat := (occVarsF cs).card

/-- Bounds-checked list write row[i] = 1; none embeds the Python IndexError
raised when the index reaches past the row (the indexes computed below are
never negative). -/
def setOne : List Nat → Nat → Option (List Nat)
  | [], _ => none
  | _ :: t, 0 => some (1 :: t)
  | h :: t, i + 1 => (setOne t i).map (h :: ·)

/-- Literal loop of to_matrix_representation building one row: column
literal-1 for a positive literal, column max_var + abs(literal) - 1
otherwise. -/
def buildRow (maxVar : Nat) : Clause → List Nat → Option (List Nat)
  | [], row => some row
  | l :: ls, row =>
    let idx := if 0 < l then l.toNat - 1 else maxVar + l.natAbs - 1
    match setOne row idx with
    | none => none
    | some row' => buildRow maxVar ls row'

/-- Clause loop of to_matrix_representation. -/
def buildRows (maxVar : Nat) : List Clause → Option (List (List Nat))
  | [] => some []
  | c :: rest =>
    match buildRow maxVar c (List.replicate (2 * maxVar) 0) with
    | none => none
    | some row => (buildRows maxVar rest).map (row :: ·)

/-- Embeds CNFTransformer.to_matrix_representation from cnf_transformer.py:
one row per clause over 2 * get_variable_count() columns; the declared
num_variables plays no part. none embeds an IndexError escaping the call. -/
def to_matrix_representation (cs : List Clause) :
    Option (List (List Nat) × Nat × Nat) :=
  let maxVar := get_variable_count cs
  match buildRows maxVar cs with
  | none => none
  | some m => some (m, cs.length, 2 * maxVar)

end CNFTransformer

/-- States (current_assignments, unsatisfied_clause_indices) reaching the
recursive calls of the clause-targeted solvers: the top-level entries of
solve_3sat_backward and solve_3sat_goal_oriented pair the empty assignment
with every clause index, and every recursive call site —
_find_solution_recursive's literal loop, _apply_heuristic_for_variable (its
remaining_unsatisfied_true/false are computed by the same refiltering from
the same extended assignment), and _try_branch_on_target_clause — passes an
assignment extended at an unassigned variable together with the unsatisfied
list refiltered under that extended assignment. -/
inductive SolverReach (cs : List Clause) : Assignment → List Nat → Prop where
  | init : SolverReach cs [] (List.range cs.length)
  | step {a : Assignment} {idxs : List Nat} (v : Int) (b : Bool)
      (hreach : SolverReach cs a idxs) (hun : lookupA a v = none) :
      SolverReach cs (insertA a v b)
        (get_unsatisfied_clause_indices cs (insertA a v b) idxs)


theorem lookupA_insertA_self (a : Assignment) (k : Int) (v : Bool) :
    lookupA (insertA a k v) k = some v := by
  induction a with
  | nil => simp [insertA, lookupA]
  | cons hd tl ih =>
    obtain ⟨k', v'⟩ := hd
    by_cases h : k' = k
    · simp [insertA, h, lookupA]
    · simp [insertA, h, lookupA, ih]

theorem lookupA_insertA_ne (a : Assignment) (k k' : Int) (v : Bool)
    (h : k' ≠ k) : lookupA (insertA a k v) k' = lookupA a k' := by
  have h' : ¬k = k' := fun hh => h hh.symm
  induction a with
  | nil => simp [insertA, lookupA, h']
  | cons hd tl ih =>
    obtain ⟨k0, v0⟩ := hd
    by_cases h0 : k0 = k
    · subst h0
      simp [insertA, lookupA, h']
    · simp only [insertA, if_neg h0, lookupA]
      by_cases h1 : k0 = k' <;> simp [h1, ih]

theorem mem_occVarsF {cs : List Clause} {v : Int} :
    v ∈ occVarsF cs ↔ ∃ c ∈ cs, ∃ l ∈ c, varOf l = v := by
  simp [occVarsF, List.mem_flatMap]

theorem unassignedIn_insert_lt {S : Finset Int} {a : Assignment} {v : Int}
    (hv : v ∈ S) (hun : lookupA a v = none) (b : Bool) :
    unassignedIn S (insertA a v b) < unassignedIn S a := by
  apply Finset.card_lt_card
  constructor
  · intro w hw
    simp only [Finset.mem_filter] at hw ⊢
    refine ⟨hw.1, ?_⟩
    by_cases hwv : w = v
    · subst hwv
      rw [lookupA_insertA_self] at hw
      exact absurd hw.2 (by simp)
    · rw [lookupA_insertA_ne _ _ _ _ hwv] at hw
      exact hw.2
  · intro hsub
    have hv' : v ∈ S.filter (fun w => lookupA a w = none) := by
      simp [Finset.mem_filter, hv, hun]
    have := hsub hv'
    simp [Finset.mem_filter, lookupA_insertA_self] at this

theorem unassignedIn_insert_le (S : Finset Int) (a : Assignment) (v : Int)
    (b : Bool) : unassignedIn S (insertA a v b) ≤ unassignedIn S a := by
  apply Finset.card_le_card
  intro w hw
  simp only [Finset.mem_filter] at hw ⊢
  refine ⟨hw.1, ?_⟩
  by_cases hwv : w = v
  · subst hwv
    rw [lookupA_insertA_self] at hw
    exact absurd hw.2 (by simp)
  · rw [lookupA_insertA_ne _ _ _ _ hwv] at hw
    exact hw.2

theorem unassignedIn_insert_assigned {S : Finset Int} {a : Assignment}
    {v : Int} (hv : lookupA a v ≠ none) (b : Bool) :
    unassignedIn S (insertA a v b) = unassignedIn S a := by
  unfold unassignedIn
  congr 1
  apply Finset.filter_congr
  intro w _
  by_cases hwv : w = v
  · subst hwv
    simp [lookupA_insertA_self, eq_comm]
    cases h : lookupA a w
    · exact absurd h hv
    · simp
  · rw [lookupA_insertA_ne _ _ _ _ hwv]

theorem litSatisfied_iff (a : Assignment) (l : Int) :
    litSatisfied a l = true ↔ literalMadeTrue a l := by
  unfold litSatisfied literalMadeTrue
  cases h : lookupA a (varOf l) with
  | none => simp
  | some v => cases v <;> simp

theorem is_clause_satisfied_iff (c : Clause) (a : Assignment) :
    is_clause_satisfied c a = true ↔ ∃ l ∈ c, literalMadeTrue a l := by
  induction c with
  | nil => simp [is_clause_satisfied]
  | cons l rest ih =>
    simp only [is_clause_satisfied]
    by_cases hlit : litSatisfied a l = true
    · rw [if_pos hlit]
      exact iff_of_true rfl
        ⟨l, List.mem_cons_self .., (litSatisfied_iff a l).mp hlit⟩
    · rw [if_neg hlit, ih]
      constructor
      · rintro ⟨x, hx, hm⟩; exact ⟨x, List.mem_cons_of_mem _ hx, hm⟩
      · rintro ⟨x, hx, hm⟩
        rcases List.mem_cons.mp hx with rfl | hx
        · exact absurd ((litSatisfied_iff a x).mpr hm) hlit
        · exact ⟨x, hx, hm⟩

/-- C2 — Clause-satisfaction oracle semantics: is_clause_satisfied returns
true iff some literal of the clause is assigned a value making it true
(positive literal with variable true, negative literal with variable false);
literals with unassigned variables are skipped, so a clause whose literals
are all unassigned is reported unsatisfied (false). -/
theorem C2_oracle_semantics (c : Clause) (a : Assignment) :
    (is_clause_satisfied c a = true ↔ ∃ l ∈ c, literalMadeTrue a l) ∧
      ((∀ l ∈ c, lookupA a (varOf l) = none) →
        is_clause_satisfied c a = false) := by
  refine ⟨is_clause_satisfied_iff c a, fun hall => ?_⟩
  by_contra h
  have hs : is_clause_satisfied c a = true := by
    cases hcs : is_clause_satisfied c a
    · exact absurd hcs h
    · rfl
  rcases (is_clause_satisfied_iff c a).mp hs with ⟨l, hl, hm⟩
  rcases hm with ⟨_, hv⟩ | ⟨_, hv⟩ <;> rw [hall l hl] at hv <;> exact Option.noConfusion hv

/-- Witness for C2 at a concrete clause and assignment: both literals of
the clause [1, -2] are unassigned under the empty assignment, and the
oracle reports the clause unsatisfied. -/
theorem C2_oracle_semantics_witness :
    is_clause_satisfied [1, -2] [] = false :=
  (C2_oracle_semantics [1, -2] []).2 (by decide)

/-- C9 — Oracle agreement across callers: the shared predicate
is_clause_satisfied (tests/sat_solver/utils.py) and the DPLL solver's
internal check SimpleDPLLSolver._is_satisfied (example_sat_solver.py) are
extensionally equal on every clause and every partial assignment. -/
theorem C9_oracle_agreement (c : Clause) (a : Assignment) :
    is_clause_satisfied c a = SimpleDPLLSolver.is_satisfied c a := by
  induction c with
  | nil => rfl
  | cons l rest ih =>
    simp only [is_clause_satisfied, SimpleDPLLSolver.is_satisfied]
    have hl : litSatisfied a l = SimpleDPLLSolver.litTrueUnder a l := rfl
    rw [hl, ih]

/-- C1 — the code violates the claim: on the spec's own scenario
(clauses [[1,2],[-1,3],[-2,-3]], num_variables 3) SimpleDPLLSolver.solve
reports satisfiable but returns the assignment {1: True} — each branch
recursion of _dpll receives a copy of the dict, so assignments made below
the branch point never reach the returned top-level dict — and clause
[-1,3] is not satisfied by the returned assignment. -/
theorem C1_dpll_returns_unsatisfying_assignment :
    SimpleDPLLSolver.solve [[1, 2], [-1, 3], [-2, -3]] =
      some (true, some [(1, true)],
        { decisions := 1, unit_propagations := 2, conflicts := 0,
          backtracks := 0 }) ∧
      is_clause_satisfied [-1, 3] [(1, true)] = false :=
  ⟨by decide, by decide⟩

/-- C3 counterexample — on num_variables = 1 and clauses [[2]] the
goal-oriented solver reports SATISFIABLE with completed-solution key list
[2, 1]: the search-assigned variable 2 lies outside {1}, and is kept, not
dropped, by the default-fill step. -/
theorem C3_goal_solver_keeps_out_of_range_key :
    (GoalOriented.solveReport 1 [[2]]).map GoalOriented.Report.status =
        some "SATISFIABLE" ∧
      (GoalOriented.solveReport 1 [[2]]).map
          (fun r => keysA r.solution) = some [2, 1] ∧
      (2 : Int) ∉ scanVars 1 :=
  ⟨by decide, by decide, by decide⟩

/-- C4 counterexample — the goal-oriented top-level solve returns None on
every input; on the satisfiable formula [[1,2,-1],[-1,-2,2]] with
num_variables = 2 the solver's own report says SATISFIABLE, yet the
function's return value is the absent value and carries no assignment and
no statistics. -/
theorem C4_goal_solve_returns_no_pair :
    GoalOriented.solve_3sat_goal_oriented 2 [[1, 2, -1], [-1, -2, 2]] =
        none ∧
      (GoalOriented.solveReport 2 [[1, 2, -1], [-1, -2, 2]]).map
          GoalOriented.Report.status = some "SATISFIABLE" :=
  ⟨rfl, by decide⟩

/-- C5 counterexample — on clauses [[-2]] the distinct-variable count is 1,
so each row has 2 columns, and the negative literal -2 writes column
1 + 2 - 1 = 2: an IndexError; the matrix encoding does not complete. -/
theorem C5_matrix_fails_on_sparse_variable :
    CNFTransformer.to_matrix_representation [[-2]] = none := by decide

/-- C6 counterexample — on clauses [[5]] the variable 5 co-occurs with no
other variable, yet it is a key of the adjacency map, bound to an empty
neighbor set, contradicting the claimed key-iff-co-occurrence. -/
theorem C6_singleton_clause_key_present :
    CNFTransformer.adjLookup (CNFTransformer.to_adjacency_list [[5]]) 5 =
        some [] ∧
      ¬∃ c ∈ [[(5 : Int)]], (5 : Int) ∈ c.map varOf ∧
        ∃ w ∈ c.map varOf, w ≠ 5 :=
  ⟨by decide, by decide⟩

/-- C7 counterexample — on num_variables = 6 and clauses
[[1,4],[1,5],[1,6],[-1,2],[-2,3],[-2,-3]] the code reports SATISFIABLE:
at the top call the margin rule forces 1 = True (3 newly satisfied clauses
against 1), that subtree fails, and the scan resumes with the remaining
variables; a round that instead stops at the first forced choice — the
claim's "remaining variables are not evaluated that round" — reports
UNSATISFIABLE on the same input. -/
theorem C7_scan_resumes_after_failed_forced_choice :
    (GoalOriented.solveReport 6
          [[1, 4], [1, 5], [1, 6], [-1, 2], [-2, 3], [-2, -3]]).map
        GoalOriented.Report.status = some "SATISFIABLE" ∧
      GoalOriented.claimRoundSolve 6
          [[1, 4], [1, 5], [1, 6], [-1, 2], [-2, 3], [-2, -3]] =
        some none :=
  ⟨by decide, by decide⟩

namespace CNFTransformer

theorem adjLookup_isSome_iff_mem_keys (ad : AdjMap) (v : Int) :
    (adjLookup ad v).isSome ↔ v ∈ ad.map Prod.fst := by
  induction ad with
  | nil => simp [adjLookup]
  | cons hd tl ih =>
    obtain ⟨k, ns⟩ := hd
    by_cases h : k = v
    · subst h
      simp [adjLookup]
    · have h' : ¬v = k := fun hh => h hh.symm
      simp [adjLookup, h, h', ih]

theorem adjLookup_append_single_ne (ad : AdjMap) (v x : Int) (ns : List Int)
    (h : x ≠ v) : adjLookup (ad ++ [(v, ns)]) x = adjLookup ad x := by
  have h' : ¬v = x := fun hh => h hh.symm
  induction ad with
  | nil => simp [adjLookup, h']
  | cons hd tl ih =>
    obtain ⟨k, ns'⟩ := hd
    by_cases hk : k = x <;> simp [adjLookup, hk, ih]

theorem adjLookup_append_single_self (ad : AdjMap) (v : Int) (ns : List Int)
    (h : adjLookup ad v = none) : adjLookup (ad ++ [(v, ns)]) v = some ns := by
  induction ad with
  | nil => simp [adjLookup]
  | cons hd tl ih =>
    obtain ⟨k, ns'⟩ := hd
    by_cases hk : k = v
    · subst hk
      simp [adjLookup] at h
    · simp only [adjLookup, if_neg hk] at h
      simp [adjLookup, hk, ih h]

theorem adjLookup_addNeighbor_ne (ad : AdjMap) (v w x : Int) (h : x ≠ v) :
    adjLookup (addNeighbor ad v w) x = adjLookup ad x := by
  induction ad with
  | nil => rfl
  | cons hd tl ih =>
    obtain ⟨k, ns⟩ := hd
    by_cases hk : k = v
    · subst hk
      have h' : ¬k = x := fun hh => h hh.symm
      simp [addNeighbor, adjLookup, h']
    · by_cases hx : k = x <;> simp [addNeighbor, adjLookup, hk, hx, ih, h]

theorem adjLookup_addNeighbor_self {ad : AdjMap} {v : Int} {ns : List Int}
    (h : adjLookup ad v = some ns) (w : Int) :
    adjLookup (addNeighbor ad v w) v =
      some (if w ∈ ns then ns else ns ++ [w]) := by
  induction ad with
  | nil => simp [adjLookup] at h
  | cons hd tl ih =>
    obtain ⟨k, ns'⟩ := hd
    by_cases hk : k = v
    · subst hk
      have hns : ns' = ns := by simpa [adjLookup] using h
      subst hns
      simp [addNeighbor, adjLookup]
    · simp only [adjLookup, if_neg hk] at h
      simp [addNeighbor, adjLookup, hk, ih h]

theorem adjLookup_addNeighbors_ne (v : Int) (ws : List Int) (ad : AdjMap)
    (x : Int) (h : x ≠ v) :
    adjLookup (addNeighbors v ws ad) x = adjLookup ad x := by
  induction ws generalizing ad with
  | nil => rfl
  | cons w ws ih =>
    simp only [addNeighbors]
    rw [ih]
    by_cases hw : w ≠ v
    · rw [if_pos hw, adjLookup_addNeighbor_ne _ _ _ _ h]
    · rw [if_neg hw]

theorem adjLookup_addNeighbors_self {v : Int} (ws : List Int) {ad : AdjMap}
    {ns : List Int} (h : adjLookup ad v = some ns) :
    ∃ ns', adjLookup (addNeighbors v ws ad) v = some ns' ∧
      ∀ y, y ∈ ns' ↔ y ∈ ns ∨ (y ∈ ws ∧ y ≠ v) := by
  induction ws generalizing ad ns with
  | nil => exact ⟨ns, h, by simp⟩
  | cons w ws ih =>
    simp only [addNeighbors]
    by_cases hw : w ≠ v
    · rw [if_pos hw]
      obtain ⟨ns', h', hiff⟩ := ih (adjLookup_addNeighbor_self h w)
      refine ⟨ns', h', fun y => ?_⟩
      rw [hiff y]
      by_cases hyn : w ∈ ns
      · simp only [if_pos hyn, List.mem_cons]
        constructor
        · rintro (hy | ⟨hy, hne⟩)
          · exact Or.inl hy
          · exact Or.inr ⟨Or.inr hy, hne⟩
        · rintro (hy | ⟨rfl | hy, hne⟩)
          · exact Or.inl hy
          · exact Or.inl hyn
          · exact Or.inr ⟨hy, hne⟩
      · simp only [if_neg hyn, List.mem_append, List.mem_cons,
          List.not_mem_nil, or_false]
        constructor
        · rintro ((hy | rfl) | ⟨hy, hne⟩)
          · exact Or.inl hy
          · exact Or.inr ⟨Or.inl rfl, hw⟩
          · exact Or.inr ⟨Or.inr hy, hne⟩
        · rintro (hy | ⟨rfl | hy, hne⟩)
          · exact Or.inl (Or.inl hy)
          · exact Or.inl (Or.inr rfl)
          · exact Or.inr ⟨hy, hne⟩
    · rw [if_neg hw]
      push_neg at hw
      subst hw
      obtain ⟨ns', h', hiff⟩ := ih h
      refine ⟨ns', h', fun y => ?_⟩
      rw [hiff y]
      simp only [List.mem_cons]
      constructor
      · rintro (hy | ⟨hy, hne⟩)
        · exact Or.inl hy
        · exact Or.inr ⟨Or.inr hy, hne⟩
      · rintro (hy | ⟨rfl | hy, hne⟩)
        · exact Or.inl hy
        · exact absurd rfl hne
        · exact Or.inr ⟨hy, hne⟩

theorem adjLookup_ensureKey_ne (ad : AdjMap) (v x : Int) (h : x ≠ v) :
    adjLookup (ensureKey ad v) x = adjLookup ad x := by
  unfold ensureKey
  by_cases hv : v ∈ ad.map Prod.fst
  · rw [if_pos hv]
  · rw [if_neg hv, adjLookup_append_single_ne _ _ _ _ h]

theorem adjLookup_ensureKey_self (ad : AdjMap) (v : Int) :
    adjLookup (ensureKey ad v) v = some ((adjLookup ad v).getD []) := by
  unfold ensureKey
  by_cases hv : v ∈ ad.map Prod.fst
  · rw [if_pos hv]
    obtain ⟨ns, hns⟩ :=
      Option.isSome_iff_exists.mp ((adjLookup_isSome_iff_mem_keys ad v).mpr hv)
    simp [hns]
  · have hnone : adjLookup ad v = none := by
      cases h : adjLookup ad v
      · rfl
      · exact absurd ((adjLookup_isSome_iff_mem_keys ad v).mp (by simp [h])) hv
    rw [if_neg hv, adjLookup_append_single_self _ _ _ hnone, hnone]
    rfl

theorem mem_getD_nil_iff (o : Option (List Int)) (y : Int) :
    y ∈ o.getD [] ↔ ∃ ns0, o = some ns0 ∧ y ∈ ns0 := by
  cases o <;> simp

theorem adjLookup_processClauseVars_isSome (allVars vs : List Int)
    (ad : AdjMap) (x : Int) :
    (adjLookup (processClauseVars allVars vs ad) x).isSome ↔
      (adjLookup ad x).isSome ∨ x ∈ vs := by
  induction vs generalizing ad with
  | nil => simp [processClauseVars]
  | cons v vs ih =>
    simp only [processClauseVars]
    rw [ih]
    by_cases hx : x = v
    · subst hx
      obtain ⟨ns', h', _⟩ :=
        adjLookup_addNeighbors_self allVars (adjLookup_ensureKey_self ad x)
      simp [h', List.mem_cons]
    · rw [adjLookup_addNeighbors_ne _ _ _ _ hx,
        adjLookup_ensureKey_ne _ _ _ hx]
      simp only [List.mem_cons]
      constructor
      · rintro (hs | hm)
        · exact Or.inl hs
        · exact Or.inr (Or.inr hm)
      · rintro (hs | rfl | hm)
        · exact Or.inl hs
        · exact absurd rfl hx
        · exact Or.inr hm

theorem adjLookup_processClauseVars_mem (allVars vs : List Int)
    (ad : AdjMap) (x y : Int) {ns : List Int}
    (h : adjLookup (processClauseVars allVars vs ad) x = some ns) :
    y ∈ ns ↔ (∃ ns0, adjLookup ad x = some ns0 ∧ y ∈ ns0) ∨
      (x ∈ vs ∧ y ∈ allVars ∧ y ≠ x) := by
  induction vs generalizing ad ns with
  | nil =>
    simp only [processClauseVars] at h
    simp [h]
  | cons v vs ih =>
    simp only [processClauseVars] at h
    rw [ih _ h]
    by_cases hx : x = v
    · subst hx
      obtain ⟨ns', h', hiff⟩ :=
        adjLookup_addNeighbors_self allVars (adjLookup_ensureKey_self ad x)
      have hfirst : (∃ ns0,
          adjLookup (addNeighbors x allVars (ensureKey ad x)) x = some ns0 ∧
            y ∈ ns0) ↔ y ∈ ns' := by
        constructor
        · rintro ⟨ns0, hns0, hy⟩
          rw [h'] at hns0
          injection hns0 with hns0
          subst hns0
          exact hy
        · exact fun hy => ⟨ns', h', hy⟩
      rw [hfirst, hiff y, mem_getD_nil_iff]
      simp only [List.mem_cons, true_or, true_and]
      constructor
      · rintro ((he | hb) | ⟨_, hb⟩)
        · exact Or.inl he
        · exact Or.inr hb
        · exact Or.inr hb
      · rintro (he | hb)
        · exact Or.inl (Or.inl he)
        · exact Or.inl (Or.inr hb)
    · rw [adjLookup_addNeighbors_ne _ _ _ _ hx,
        adjLookup_ensureKey_ne _ _ _ hx]
      simp only [List.mem_cons]
      constructor
      · rintro (he | ⟨hm, hb⟩)
        · exact Or.inl he
        · exact Or.inr ⟨Or.inr hm, hb⟩
      · rintro (he | ⟨rfl | hm, hb⟩)
        · exact Or.inl he
        · exact absurd rfl hx
        · exact Or.inr ⟨hm, hb⟩

theorem adjLookup_foldl_isSome (cs : List Clause) (ad : AdjMap) (x : Int) :
    (adjLookup
        (cs.foldl (fun ad c => processClauseVars (c.map varOf) (c.map varOf)
          ad) ad) x).isSome ↔
      (adjLookup ad x).isSome ∨ ∃ c ∈ cs, x ∈ c.map varOf := by
  induction cs generalizing ad with
  | nil => simp
  | cons c cs ih =>
    simp only [List.foldl_cons]
    rw [ih, adjLookup_processClauseVars_isSome]
    simp only [List.mem_cons]
    constructor
    · rintro ((hs | hm) | ⟨c', hc', hm⟩)
      · exact Or.inl hs
      · exact Or.inr ⟨c, Or.inl rfl, hm⟩
      · exact Or.inr ⟨c', Or.inr hc', hm⟩
    · rintro (hs | ⟨c', rfl | hc', hm⟩)
      · exact Or.inl (Or.inl hs)
      · exact Or.inl (Or.inr hm)
      · exact Or.inr ⟨c', hc', hm⟩

theorem adjLookup_foldl_mem (cs : List Clause) (ad : AdjMap) (x y : Int)
    {ns : List Int}
    (h : adjLookup
        (cs.foldl (fun ad c => processClauseVars (c.map varOf) (c.map varOf)
          ad) ad) x = some ns) :
    y ∈ ns ↔ (∃ ns0, adjLookup ad x = some ns0 ∧ y ∈ ns0) ∨
      ∃ c ∈ cs, x ∈ c.map varOf ∧ y ∈ c.map varOf ∧ y ≠ x := by
  induction cs generalizing ad ns with
  | nil =>
    simp only [List.foldl_nil] at h
    simp [h]
  | cons c cs ih =>
    simp only [List.foldl_cons] at h
    rw [ih _ h]
    constructor
    · rintro (⟨ns0, hns0, hy⟩ | ⟨c', hc', hm⟩)
      · rw [adjLookup_processClauseVars_mem _ _ _ _ _ hns0] at hy
        rcases hy with he | ⟨hm1, hm2, hne⟩
        · exact Or.inl he
        · exact Or.inr ⟨c, List.mem_cons_self .., hm1, hm2, hne⟩
      · exact Or.inr ⟨c', List.mem_cons_of_mem _ hc', hm⟩
    · rintro (⟨ns0, hns0, hy⟩ | ⟨c', hc', hm⟩)
      · have hsome : (adjLookup
            (processClauseVars (c.map varOf) (c.map varOf) ad) x).isSome := by
          rw [adjLookup_processClauseVars_isSome]
          exact Or.inl (by simp [hns0])
        obtain ⟨ns1, hns1⟩ := Option.isSome_iff_exists.mp hsome
        refine Or.inl ⟨ns1, hns1, ?_⟩
        rw [adjLookup_processClauseVars_mem _ _ _ _ _ hns1]
        exact Or.inl ⟨ns0, hns0, hy⟩
      · rcases List.mem_cons.mp hc' with rfl | hc'
        · rcases hm with ⟨hm1, hm2, hne⟩
          have hsome : (adjLookup
              (processClauseVars (c'.map varOf) (c'.map varOf) ad)
                x).isSome := by
            rw [adjLookup_processClauseVars_isSome]
            exact Or.inr hm1
          obtain ⟨ns1, hns1⟩ := Option.isSome_iff_exists.mp hsome
          refine Or.inl ⟨ns1, hns1, ?_⟩
          rw [adjLookup_processClauseVars_mem _ _ _ _ _ hns1]
          exact Or.inr ⟨hm1, hm2, hne⟩
        · exact Or.inr ⟨c', hc', hm⟩

end CNFTransformer

/-- C6 amended — adjacency-graph domain as the code computes it: a variable
v is a key of the adjacency map iff v occurs in some clause (so a variable
appearing only in size-1 clauses is present, with an empty neighbor set),
and w is a neighbor of v iff w is a distinct variable co-occurring with v
in some clause. -/
theorem C6_adjacency_key_iff_occurs (cs : List Clause) (v w : Int) :
    ((CNFTransformer.adjLookup (CNFTransformer.to_adjacency_list cs)
        v).isSome ↔ ∃ c ∈ cs, v ∈ c.map varOf) ∧
      (∀ ns,
        CNFTransformer.adjLookup (CNFTransformer.to_adjacency_list cs) v =
          some ns →
        (w ∈ ns ↔ ∃ c ∈ cs, v ∈ c.map varOf ∧ w ∈ c.map varOf ∧ w ≠ v)) := by
  constructor
  · rw [CNFTransformer.to_adjacency_list,
      CNFTransformer.adjLookup_foldl_isSome]
    simp [CNFTransformer.adjLookup]
  · intro ns h
    rw [CNFTransformer.to_adjacency_list] at h
    rw [CNFTransformer.adjLookup_foldl_mem _ _ _ _ h]
    simp [CNFTransformer.adjLookup]

/-- Witness for C6 at concrete data: in [[1,2],[2,3],[1]] the neighbor list
of variable 2 is [1,3], and the amended theorem turns membership of 1 in it
into a concrete co-occurrence. -/
theorem C6_adjacency_key_iff_occurs_witness :
    ∃ c ∈ [[(1 : Int), 2], [2, 3], [1]], (2 : Int) ∈ c.map varOf ∧
      (1 : Int) ∈ c.map varOf ∧ (1 : Int) ≠ 2 :=
  ((C6_adjacency_key_iff_occurs [[1, 2], [2, 3], [1]] 2 1).2 [1, 3]
    (by decide)).mp (by decide)

namespace CNFTransformer

theorem setOne_some : ∀ (row : List Nat) (i : Nat), i < row.length →
    ∃ row', setOne row i = some row' ∧ row'.length = row.length := by
  intro row
  induction row with
  | nil => intro i h; simp at h
  | cons x t ih =>
    intro i h
    cases i with
    | zero => exact ⟨1 :: t, rfl, by simp⟩
    | succ j =>
      obtain ⟨row', hrow', hlen⟩ := ih j (by simpa using h)
      exact ⟨x :: row', by simp [setOne, hrow'], by simp [hlen]⟩

theorem buildRow_some (maxVar : Nat) (c : Clause) :
    ∀ row : List Nat, row.length = 2 * maxVar →
    (∀ l ∈ c, l ≠ 0 ∧ l.natAbs ≤ maxVar) →
    ∃ row', buildRow maxVar c row = some row' ∧
      row'.length = 2 * maxVar := by
  induction c with
  | nil => exact fun row hrow _ => ⟨row, rfl, hrow⟩
  | cons l ls ih =>
    intro row hrow hc
    obtain ⟨hne, hle⟩ := hc l (List.mem_cons_self ..)
    have hidx : (if 0 < l then l.toNat - 1 else maxVar + l.natAbs - 1) <
        row.length := by
      rw [hrow]
      by_cases hl : 0 < l <;> simp only [hl, if_pos, if_neg, if_true,
        if_false] <;> omega
    obtain ⟨row', hrow', hlen⟩ := setOne_some row _ hidx
    obtain ⟨row'', hrow'', hlen'⟩ :=
      ih row' (hlen.trans hrow) (fun x hx => hc x (List.mem_cons_of_mem _ hx))
    exact ⟨row'', by simp only [buildRow, hrow', hrow''], hlen'⟩

theorem buildRows_some (maxVar : Nat) (cs : List Clause)
    (h : ∀ c ∈ cs, ∀ l ∈ c, l ≠ 0 ∧ l.natAbs ≤ maxVar) :
    ∃ m, buildRows maxVar cs = some m ∧ m.length = cs.length ∧
      ∀ row ∈ m, row.length = 2 * maxVar := by
  induction cs with
  | nil => exact ⟨[], rfl, rfl, by simp⟩
  | cons c rest ih =>
    obtain ⟨row, hrow, hlen⟩ :=
      buildRow_some maxVar c (List.replicate (2 * maxVar) 0) (by simp)
        (h c (List.mem_cons_self ..))
    obtain ⟨m, hm, hmlen, hrows⟩ :=
      ih (fun c' hc' => h c' (List.mem_cons_of_mem _ hc'))
    refine ⟨row :: m, ?_, by simp [hmlen], ?_⟩
    · simp [buildRows, hrow, hm]
    · intro r hr
      rcases List.mem_cons.mp hr with rfl | hr
      · exact hlen
      · exact hrows r hr

end CNFTransformer

/-- C5 amended — the matrix encoding ignores num_variables entirely (it
sizes rows by 2 times the distinct-variable count), so literals beyond
num_variables alone never make it fail; it completes, with one row per
clause over 2 * get_variable_count() columns, whenever every literal is
nonzero and names a variable at most the distinct-variable count (for
instance under dense 1..k numbering); a negative literal whose variable
exceeds that count makes the column index reach past the row, an
IndexError (see the counterexample). -/
theorem C5_matrix_completes_on_dense_vars (cs : List Clause)
    (h : ∀ c ∈ cs, ∀ l ∈ c, l ≠ 0 ∧
      l.natAbs ≤ CNFTransformer.get_variable_count cs) :
    ∃ m, CNFTransformer.to_matrix_representation cs =
        some (m, cs.length, 2 * CNFTransformer.get_variable_count cs) ∧
      m.length = cs.length ∧
      ∀ row ∈ m, row.length = 2 * CNFTransformer.get_variable_count cs := by
  obtain ⟨m, hm, hlen, hrows⟩ :=
    CNFTransformer.buildRows_some (CNFTransformer.get_variable_count cs) cs h
  refine ⟨m, ?_, hlen, hrows⟩
  unfold CNFTransformer.to_matrix_representation
  simp only [hm]

/-- Witness for C5 at concrete data: [[1,-1],[2,1]] uses the dense
variables {1,2}, and the matrix encoding completes with 2 rows of 4
columns. -/
theorem C5_matrix_completes_on_dense_vars_witness :
    ∃ m, CNFTransformer.to_matrix_representation [[1, -1], [2, 1]] =
        some (m, 2, 4) ∧ m.length = 2 ∧ ∀ row ∈ m, row.length = 4 :=
  C5_matrix_completes_on_dense_vars [[1, -1], [2, 1]] (by decide)

theorem keysA_cons (p : Int × Bool) (rest : Assignment) :
    keysA (p :: rest) = p.1 :: keysA rest := rfl

theorem mem_keysA_iff_lookupA {a : Assignment} {v : Int} :
    v ∈ keysA a ↔ (lookupA a v).isSome := by
  induction a with
  | nil => simp [keysA, lookupA]
  | cons hd tl ih =>
    obtain ⟨k, b⟩ := hd
    rw [keysA_cons, List.mem_cons]
    simp only [lookupA]
    by_cases h : k = v
    · subst h
      simp
    · have h' : ¬v = k := fun hh => h hh.symm
      rw [if_neg h]
      simp only [h', false_or]
      exact ih

theorem keysA_insertA_of_not_mem {a : Assignment} {k : Int}
    (h : k ∉ keysA a) (v : Bool) : keysA (insertA a k v) = keysA a ++ [k] := by
  induction a with
  | nil => simp [insertA, keysA]
  | cons hd tl ih =>
    obtain ⟨k0, v0⟩ := hd
    simp only [keysA, List.map_cons, List.mem_cons] at h
    push_neg at h
    have hk0 : ¬k0 = k := fun hh => h.1 hh.symm
    simp only [insertA, if_neg hk0, keysA, List.map_cons, List.cons_append,
      List.cons.injEq, true_and]
    exact ih h.2

theorem mem_keysA_insertA {a : Assignment} {k w : Int} (v : Bool) :
    w ∈ keysA (insertA a k v) ↔ w ∈ keysA a ∨ w = k := by
  induction a with
  | nil => simp [insertA, keysA]
  | cons hd tl ih =>
    obtain ⟨k0, v0⟩ := hd
    by_cases h : k0 = k
    · subst h
      rw [show insertA ((k0, v0) :: tl) k0 v = (k0, v) :: tl from by
        simp [insertA]]
      rw [keysA_cons, keysA_cons]
      simp only [List.mem_cons]
      tauto
    · simp only [insertA, if_neg h, keysA_cons, List.mem_cons, ih]
      tauto

namespace Backward

theorem completeFillAux_keys (sol : Assignment) :
    ∀ (vars : List Int) (comp : Assignment) (ty : TypeMap) (defs : List Int),
    vars.Nodup → (∀ v ∈ vars, v ∉ keysA comp) →
    keysA (completeFillAux sol vars comp ty defs).1 = keysA comp ++ vars := by
  intro vars
  induction vars with
  | nil => intro comp ty defs _ _; simp [completeFillAux]
  | cons v vs ih =>
    intro comp ty defs hnd hnotin
    have hvcomp : v ∉ keysA comp := hnotin v (List.mem_cons_self ..)
    have hnotin' : ∀ (b : Bool), ∀ w ∈ vs, w ∉ keysA (insertA comp v b) := by
      intro b w hw
      rw [mem_keysA_insertA]
      rintro (hmem | rfl)
      · exact hnotin w (List.mem_cons_of_mem _ hw) hmem
      · exact (List.nodup_cons.mp hnd).1 hw
    have hnd' := (List.nodup_cons.mp hnd).2
    simp only [completeFillAux]
    cases hv : lookupA sol v with
    | some b =>
      rw [ih (insertA comp v b) (insertT ty v "Branch Set") defs hnd'
        (hnotin' b), keysA_insertA_of_not_mem hvcomp b]
      simp
    | none =>
      rw [ih (insertA comp v false) (insertT ty v "Defaulted") (defs ++ [v])
        hnd' (hnotin' false), keysA_insertA_of_not_mem hvcomp false]
      simp

end Backward

namespace GoalOriented

theorem mem_keysA_fillDefaultsAux (vars : List Int) (sol : Assignment)
    (ty : TypeMap) (defs : List Int) (w : Int) (hw : w ∈ keysA sol) :
    w ∈ keysA (fillDefaultsAux vars sol ty defs).1 := by
  induction vars generalizing sol ty defs with
  | nil => exact hw
  | cons v vs ih =>
    simp only [fillDefaultsAux]
    cases hv : lookupA sol v with
    | some b => exact ih sol ty defs hw
    | none =>
      exact ih _ _ _ ((mem_keysA_insertA false).mpr (Or.inl hw))

theorem scanVars_mem_keysA_fillDefaultsAux (vars : List Int)
    (sol : Assignment) (ty : TypeMap) (defs : List Int) :
    ∀ v ∈ vars, v ∈ keysA (fillDefaultsAux vars sol ty defs).1 := by
  induction vars generalizing sol ty defs with
  | nil => simp
  | cons v vs ih =>
    intro w hw
    simp only [fillDefaultsAux]
    rcases List.mem_cons.mp hw with rfl | hw
    · cases hv : lookupA sol w with
      | some b =>
        exact mem_keysA_fillDefaultsAux vs sol ty defs w
          (mem_keysA_iff_lookupA.mpr (by simp [hv]))
      | none =>
        exact mem_keysA_fillDefaultsAux _ _ _ _ w
          ((mem_keysA_insertA false).mpr (Or.inr rfl))
    · cases hv : lookupA sol v with
      | some b => exact ih sol ty defs w hw
      | none => exact ih _ _ _ w hw

end GoalOriented

theorem scanVars_nodup (n : Nat) : (scanVars n).Nodup := by
  unfold scanVars
  apply List.Nodup.map
  · intro i j h
    push_cast at h
    omega
  · exact List.nodup_range n

/-- C3 amended — default-fill coverage as the code computes it: the
backward solver's completed assignment has key list exactly [1, ...,
num_variables] (it is rebuilt from scratch, so search-assigned variables
beyond num_variables are dropped); the goal-oriented solver's completed
assignment contains every key 1..num_variables, but it is the search's
solution dict mutated in place, so search-assigned keys beyond
num_variables are kept (see the counterexample). -/
theorem C3_default_fill_coverage (n : Nat) (cs : List Clause) :
    (∀ sol st, Backward.solve_3sat_backward n cs = some (some sol, st) →
      keysA sol = scanVars n) ∧
    (∀ rep, GoalOriented.solveReport n cs = some rep →
      ∀ v ∈ scanVars n, v ∈ keysA rep.solution ∨
        rep.status = "UNSATISFIABLE") := by
  constructor
  · intro sol st h
    unfold Backward.solve_3sat_backward at h
    split at h
    · exact absurd h (by simp)
    · rename_i sol0 st0 _
      simp only [Option.some_inj, Prod.mk.injEq] at h
      obtain ⟨hsol, _⟩ := h
      rw [← hsol]
      rw [Backward.completeFillAux_keys sol0 (scanVars n) [] [] []
        (scanVars_nodup n) (by simp [keysA])]
      simp [keysA]
    · exact absurd h (by simp)
  · intro rep h v hv
    unfold GoalOriented.solveReport at h
    split at h
    · exact absurd h (by simp)
    · rename_i sol0 ty0 st0 _
      simp only [Option.some_inj] at h
      rw [← h]
      exact Or.inl
        (GoalOriented.scanVars_mem_keysA_fillDefaultsAux _ _ _ _ v hv)
    · rename_i st0 _
      simp only [Option.some_inj] at h
      rw [← h]
      exact Or.inr rfl

/-- Witness for C3 at concrete data: on num_variables = 1 and clauses
[[1]] the backward solver returns the completed assignment with key list
[1] = scanVars 1, and the goal-oriented report contains key 1. -/
theorem C3_default_fill_coverage_witness :
    keysA [((1 : Int), true)] = scanVars 1 ∧
      ((1 : Int) ∈ keysA [((1 : Int), true)] ∨
        ("SATISFIABLE" : String) = "UNSATISFIABLE") := by
  constructor
  · exact (C3_default_fill_coverage 1 [[1]]).1 [(1, true)]
      { recursive_calls := 2, backtracks := 0, branch_choices_count := 1,
        defaulted_variables := [], status := "SATISFIABLE" } (by decide)
  · have h := (C3_default_fill_coverage 1 [[1]]).2
      ⟨"SATISFIABLE", [(1, true)], [(1, "Heuristic Set")],
        { recursive_calls := 2, backtracks_on_branch := 0,
          heuristic_choices_count := 1, branch_choices_count := 0,
          defaulted_variables := [] }⟩ (by decide) 1 (by decide)
    simpa using h

/-- C7 amended — the forced-choice rule as the code implements it: with the
margin constant 1, a polarity is forced exactly when it avoids a
contradiction the opposite polarity causes, or when neither polarity causes
a contradiction and its newly-satisfied count exceeds the other's by more
than 1; variables are scanned in increasing id order and the first forced
choice is tried first, but when the recursion beneath a forced choice
fails, the scan continues with the remaining variables of the same round
(second conjunct) instead of ending the round. -/
theorem C7_forced_choice_rule :
    (∀ (v : Int) (tCon fCon : Bool) (tCnt fCnt : Nat),
      (GoalOriented.make_heuristic_decision v tCon fCon tCnt fCnt
          GoalOriented.heuristic_factor = some (v, true) ↔
        (tCon = false ∧ fCon = true) ∨
          (tCon = false ∧ fCon = false ∧ fCnt + 1 < tCnt)) ∧
      (GoalOriented.make_heuristic_decision v tCon fCon tCnt fCnt
          GoalOriented.heuristic_factor = some (v, false) ↔
        (fCon = false ∧ tCon = true) ∨
          (tCon = false ∧ fCon = false ∧ tCnt + 1 < fCnt))) ∧
    (∀ (cs : List Clause)
      (goNext : Assignment → TypeMap → List Nat → GoalOriented.Stats →
        Option (Option (Assignment × TypeMap) × GoalOriented.Stats))
      (a : Assignment) (ty : TypeMap) (idxs : List Nat)
      (st st' : GoalOriented.Stats) (v vf : Int) (vs : List Int)
      (valf : Bool),
      lookupA a v = none →
      GoalOriented.make_heuristic_decision v
        (GoalOriented.evaluate_variable_assignment v true a cs idxs).1
        (GoalOriented.evaluate_variable_assignment v false a cs idxs).1
        (GoalOriented.evaluate_variable_assignment v true a cs idxs).2.1
        (GoalOriented.evaluate_variable_assignment v false a cs idxs).2.1
        GoalOriented.heuristic_factor = some (vf, valf) →
      goNext (insertA a vf valf) (insertT ty vf "Heuristic Set")
        (if valf then
          (GoalOriented.evaluate_variable_assignment v true a cs idxs).2.2
         else
          (GoalOriented.evaluate_variable_assignment v false a cs idxs).2.2)
        { st with heuristic_choices_count :=
            st.heuristic_choices_count + 1 } = some (none, st') →
      GoalOriented.heuristicLoop cs goNext a ty idxs st (v :: vs) =
        GoalOriented.heuristicLoop cs goNext a ty idxs st' vs) := by
  constructor
  · intro v tCon fCon tCnt fCnt
    constructor <;>
      cases tCon <;> cases fCon <;>
        simp only [GoalOriented.make_heuristic_decision,
          GoalOriented.heuristic_factor, Bool.not_false, Bool.not_true,
          Bool.and_false, Bool.false_and, Bool.and_true, Bool.true_and,
          Bool.and_self, if_true, if_false, Bool.false_eq_true,
          Bool.true_eq_false, false_and, and_false, and_true, true_and,
          false_or, or_false, and_self] <;>
        first
          | (split_ifs with h1 h2 <;> simp_all <;> omega)
          | simp_all
  · intro cs goNext a ty idxs st st' v vf vs valf h1 h2 h3
    simp only [GoalOriented.heuristicLoop, h1, Option.isSome_none,
      Bool.false_eq_true, if_false, h2, h3]

/-- Witness for C7 at concrete data: on clauses [[1,2],[1,3],[1,4]] the
margin rule forces variable 1 true (3 against 0); with a continuation that
fails, the scan step rewrites to the loop on the remaining variables. -/
theorem C7_forced_choice_rule_witness :
    GoalOriented.heuristicLoop [[1, 2], [1, 3], [1, 4]]
        (fun _ _ _ _ => some (none, ⟨9, 9, 9, 9, []⟩)) [] [] [0, 1, 2]
        ⟨0, 0, 0, 0, []⟩ [1, 2] =
      GoalOriented.heuristicLoop [[1, 2], [1, 3], [1, 4]]
        (fun _ _ _ _ => some (none, ⟨9, 9, 9, 9, []⟩)) [] [] [0, 1, 2]
        ⟨9, 9, 9, 9, []⟩ [2] :=
  C7_forced_choice_rule.2 [[1, 2], [1, 3], [1, 4]]
    (fun _ _ _ _ => some (none, ⟨9, 9, 9, 9, []⟩)) [] [] [0, 1, 2]
    ⟨0, 0, 0, 0, []⟩ ⟨9, 9, 9, 9, []⟩ 1 1 [2] true (by decide) (by decide)
    rfl

theorem is_clause_satisfied_empty (c : Clause) :
    is_clause_satisfied c [] = false := by
  induction c with
  | nil => rfl
  | cons l rest ih => simpa [is_clause_satisfied, litSatisfied, lookupA]

theorem is_clause_satisfied_of_lit {c : Clause} {a : Assignment} {l : Int}
    (hl : l ∈ c) (hsat : litSatisfied a l = true) :
    is_clause_satisfied c a = true := by
  induction c with
  | nil => simp at hl
  | cons x rest ih =>
    rcases List.mem_cons.mp hl with rfl | hl
    · simp [is_clause_satisfied, hsat]
    · simp only [is_clause_satisfied]
      rw [ih hl]
      split <;> rfl

/-- C10 — Unsatisfied-index invariant of the clause-targeted solvers: in
every reachable recursive call (SolverReach covers all call sites of the
backward and goal-oriented recursions), every index in
unsatisfied_clause_indices is in range and refers to a clause not
satisfied by current_assignments; consequently, for the nonzero literals of
the data model, the backward literal loop's consistent-skip branch — the
literal's variable already assigned to the polarity that would make the
literal true — is unreachable for the target (first) clause. -/
theorem C10_unsatisfied_invariant (cs : List Clause) (a : Assignment)
    (idxs : List Nat) (h : SolverReach cs a idxs) :
    (∀ i ∈ idxs, i < cs.length ∧
      is_clause_satisfied (cs.getD i []) a = false) ∧
    (∀ i rest, idxs = i :: rest → ∀ l ∈ cs.getD i [], l ≠ 0 →
      lookupA a (varOf l) ≠ some (decide (0 < l))) := by
  have hinv : ∀ i ∈ idxs, i < cs.length ∧
      is_clause_satisfied (cs.getD i []) a = false := by
    induction h with
    | init =>
      intro i hi
      exact ⟨List.mem_range.mp hi, is_clause_satisfied_empty _⟩
    | step v b hreach hun ih =>
      intro i hi
      unfold get_unsatisfied_clause_indices at hi
      have hmem := List.mem_of_mem_filter hi
      have hcond := List.of_mem_filter hi
      refine ⟨(ih i hmem).1, ?_⟩
      simpa using hcond
  refine ⟨hinv, ?_⟩
  rintro i rest rfl l hl hnz hlook
  have hsat : litSatisfied a l = true := by
    unfold litSatisfied
    rw [hlook]
    rcases lt_trichotomy l 0 with hneg | hzero | hpos
    · simp [hneg, not_lt_of_gt hneg]
    · exact absurd hzero hnz
    · simp [hpos]
  have := (hinv i (List.mem_cons_self ..)).2
  rw [is_clause_satisfied_of_lit hl hsat] at this
  exact Bool.noConfusion this

/-- Witness for C10 at the initial state of clauses [[1,2]]: index 0 is in
range, the clause is unsatisfied under the empty assignment, and variable 1
is not assigned the literal-satisfying polarity. -/
theorem C10_unsatisfied_invariant_witness :
    (0 < [[(1 : Int), 2]].length ∧
      is_clause_satisfied ([[(1 : Int), 2]].getD 0 []) [] = false) ∧
      lookupA [] (varOf 1) ≠ some (decide ((0 : Int) < 1)) := by
  have h := C10_unsatisfied_invariant [[1, 2]] [] (List.range 1)
    SolverReach.init
  exact ⟨h.1 0 (by decide), h.2 0 [] (by decide) 1 (by decide) (by decide)⟩

theorem varOf_mem_occVarsF {cs : List Clause} {c : Clause} {l : Int}
    (hc : c ∈ cs) (hl : l ∈ c) : varOf l ∈ occVarsF cs :=
  mem_occVarsF.mpr ⟨c, hc, l, hl, rfl⟩

theorem occVarsF_mono_cons {c : Clause} {cs : List Clause} :
    occVarsF cs ⊆ occVarsF (c :: cs) := by
  intro v hv
  rw [mem_occVarsF] at hv ⊢
  obtain ⟨c', hc', hl⟩ := hv
  exact ⟨c', List.mem_cons_of_mem _ hc', hl⟩

theorem varOf_neg_varOf (l : Int) : varOf (-(varOf l)) = varOf l := by
  unfold varOf
  omega

theorem unassignedIn_empty (S : Finset Int) : unassignedIn S [] = S.card := by
  unfold unassignedIn
  rw [Finset.filter_true_of_mem]
  intro v _
  rfl

namespace SimpleDPLLSolver

theorem find_unit_clause_spec : ∀ {cs : List Clause} {a : Assignment}
    {l : Int}, find_unit_clause cs a = some l →
    varOf l ∈ occVarsF cs ∧ lookupA a (varOf l) = none := by
  intro cs
  induction cs with
  | nil => intro a l h; exact absurd h (by simp [find_unit_clause])
  | cons c rest ih =>
    intro a l h
    simp only [find_unit_clause] at h
    split at h
    · obtain ⟨ho, hu⟩ := ih h
      exact ⟨occVarsF_mono_cons ho, hu⟩
    · split at h
      · rename_i l0 hfilter
        injection h with h
        rw [h] at hfilter
        have hl0 : l ∈ c.filter (fun x => (lookupA a (varOf x)).isNone) := by
          rw [hfilter]
          exact List.mem_cons_self ..
        have hmem := List.mem_of_mem_filter hl0
        have hcond := List.of_mem_filter hl0
        refine ⟨varOf_mem_occVarsF (List.mem_cons_self ..) hmem, ?_⟩
        simpa [Option.isNone_iff_eq_none] using hcond
      · obtain ⟨ho, hu⟩ := ih h
        exact ⟨occVarsF_mono_cons ho, hu⟩

theorem mem_addIfAbsent {acc : List Int} {v w : Int} :
    w ∈ addIfAbsent acc v ↔ w ∈ acc ∨ w = v := by
  unfold addIfAbsent
  split
  · rename_i hin
    constructor
    · exact Or.inl
    · rintro (hw | rfl)
      · exact hw
      · exact hin
  · simp

theorem mem_polarityVarsInClause : ∀ {pw : Bool} {a : Assignment}
    {c : Clause} {acc : List Int} {w : Int},
    w ∈ polarityVarsInClause pw a c acc →
    w ∈ acc ∨ ((∃ l ∈ c, varOf l = w) ∧ lookupA a w = none) := by
  intro pw a c
  induction c with
  | nil => intro acc w h; exact Or.inl h
  | cons l rest ih =>
    intro acc w h
    simp only [polarityVarsInClause] at h
    split at h
    · rename_i hcond
      rcases ih h with hacc | ⟨⟨l', hl', hvl'⟩, hun⟩
      · rcases mem_addIfAbsent.mp hacc with hacc' | rfl
        · exact Or.inl hacc'
        · refine Or.inr ⟨⟨l, List.mem_cons_self .., rfl⟩, ?_⟩
          have := (Bool.and_eq_true_iff.mp hcond).1
          simpa [Option.isNone_iff_eq_none] using this
      · exact Or.inr ⟨⟨l', List.mem_cons_of_mem _ hl', hvl'⟩, hun⟩
    · rcases ih h with hacc | ⟨⟨l', hl', hvl'⟩, hun⟩
      · exact Or.inl hacc
      · exact Or.inr ⟨⟨l', List.mem_cons_of_mem _ hl', hvl'⟩, hun⟩

theorem mem_polarityVars : ∀ {pw : Bool} {cs : List Clause} {a : Assignment}
    {acc : List Int} {w : Int},
    w ∈ polarityVars pw cs a acc →
    w ∈ acc ∨ (w ∈ occVarsF cs ∧ lookupA a w = none) := by
  intro pw cs
  induction cs with
  | nil => intro a acc w h; exact Or.inl h
  | cons c rest ih =>
    intro a acc w h
    simp only [polarityVars] at h
    split at h
    · rcases ih h with hacc | ⟨ho, hu⟩
      · exact Or.inl hacc
      · exact Or.inr ⟨occVarsF_mono_cons ho, hu⟩
    · rcases ih h with hacc | ⟨ho, hu⟩
      · rcases mem_polarityVarsInClause hacc with hacc' | ⟨⟨l, hl, hvl⟩, hun⟩
        · exact Or.inl hacc'
        · exact Or.inr ⟨hvl ▸ varOf_mem_occVarsF (List.mem_cons_self ..) hl,
            hun⟩
      · exact Or.inr ⟨occVarsF_mono_cons ho, hu⟩

theorem occVarsF_varOf_self {cs : List Clause} {w : Int}
    (h : w ∈ occVarsF cs) : varOf w = w := by
  rw [mem_occVarsF] at h
  obtain ⟨c, _, l, _, rfl⟩ := h
  unfold varOf
  omega

theorem find_pure_literal_spec {cs : List Clause} {a : Assignment} {p : Int}
    (h : find_pure_literal cs a = some p) :
    varOf p ∈ occVarsF cs ∧ lookupA a (varOf p) = none := by
  unfold find_pure_literal at h
  split at h
  · rename_i p0 rest0 hfilter
    injection h with h
    rw [h] at hfilter
    have hp0 : p ∈ (polarityVars true cs a []).filter
        (fun v => !decide (v ∈ polarityVars false cs a [])) := by
      rw [hfilter]
      exact List.mem_cons_self ..
    have hmem := List.mem_of_mem_filter hp0
    rcases mem_polarityVars hmem with hacc | ⟨ho, hu⟩
    · exact absurd hacc (by simp)
    · rw [occVarsF_varOf_self ho]
      exact ⟨ho, hu⟩
  · split at h
    · rename_i q0 rest0 hfilter
      injection h with h
      have hq0 : q0 ∈ (polarityVars false cs a []).filter
          (fun v => !decide (v ∈ polarityVars true cs a [])) := by
        rw [hfilter]
        exact List.mem_cons_self ..
      have hmem := List.mem_of_mem_filter hq0
      rcases mem_polarityVars hmem with hacc | ⟨ho, hu⟩
      · exact absurd hacc (by simp)
      · have hq : varOf q0 = q0 := occVarsF_varOf_self ho
        have hvp : varOf p = q0 := by
          rw [← h, ← hq, varOf_neg_varOf, hq]
        rw [hvp]
        exact ⟨ho, hu⟩
    · exact absurd h (by simp)

theorem mem_keys_bumpCount : ∀ {acc : List (Int × Nat)} {v w : Int},
    w ∈ (bumpCount acc v).map Prod.fst → w ∈ acc.map Prod.fst ∨ w = v := by
  intro acc
  induction acc with
  | nil =>
    intro v w h
    simp [bumpCount] at h
    exact Or.inr h
  | cons hd tl ih =>
    intro v w h
    obtain ⟨k, cnt⟩ := hd
    simp only [bumpCount] at h
    split at h
    · rename_i hk
      simp only [List.map_cons, List.mem_cons] at h ⊢
      rcases h with rfl | h
      · exact Or.inl (Or.inl rfl)
      · exact Or.inl (Or.inr h)
    · simp only [List.map_cons, List.mem_cons] at h ⊢
      rcases h with rfl | h
      · exact Or.inl (Or.inl rfl)
      · rcases ih h with h' | rfl
        · exact Or.inl (Or.inr h')
        · exact Or.inr rfl

theorem mem_keys_countClauseVars : ∀ {a : Assignment} {c : Clause}
    {acc : List (Int × Nat)} {w : Int},
    w ∈ (countClauseVars a c acc).map Prod.fst →
    w ∈ acc.map Prod.fst ∨
      ((∃ l ∈ c, varOf l = w) ∧ lookupA a w = none) := by
  intro a c
  induction c with
  | nil => intro acc w h; exact Or.inl h
  | cons l rest ih =>
    intro acc w h
    simp only [countClauseVars] at h
    split at h
    · rename_i hcond
      rcases ih h with hacc | ⟨⟨l', hl', hvl'⟩, hun⟩
      · rcases mem_keys_bumpCount hacc with hacc' | rfl
        · exact Or.inl hacc'
        · refine Or.inr ⟨⟨l, List.mem_cons_self .., rfl⟩, ?_⟩
          simpa [Option.isNone_iff_eq_none] using hcond
      · exact Or.inr ⟨⟨l', List.mem_cons_of_mem _ hl', hvl'⟩, hun⟩
    · rcases ih h with hacc | ⟨⟨l', hl', hvl'⟩, hun⟩
      · exact Or.inl hacc
      · exact Or.inr ⟨⟨l', List.mem_cons_of_mem _ hl', hvl'⟩, hun⟩

theorem mem_keys_varCounts : ∀ {cs : List Clause} {a : Assignment}
    {acc : List (Int × Nat)} {w : Int},
    w ∈ (varCounts cs a acc).map Prod.fst →
    w ∈ acc.map Prod.fst ∨ (w ∈ occVarsF cs ∧ lookupA a w = none) := by
  intro cs
  induction cs with
  | nil => intro a acc w h; exact Or.inl h
  | cons c rest ih =>
    intro a acc w h
    simp only [varCounts] at h
    split at h
    · rcases ih h with hacc | ⟨ho, hu⟩
      · exact Or.inl hacc
      · exact Or.inr ⟨occVarsF_mono_cons ho, hu⟩
    · rcases ih h with hacc | ⟨ho, hu⟩
      · rcases mem_keys_countClauseVars hacc with hacc' | ⟨⟨l, hl, hvl⟩, hun⟩
        · exact Or.inl hacc'
        · exact Or.inr ⟨hvl ▸ varOf_mem_occVarsF (List.mem_cons_self ..) hl,
            hun⟩
      · exact Or.inr ⟨occVarsF_mono_cons ho, hu⟩

theorem maxByCount_mem : ∀ {l : List (Int × Nat)} {p : Int × Nat},
    maxByCount l = some p → p ∈ l := by
  intro l
  induction l with
  | nil => intro p h; exact absurd h (by simp [maxByCount])
  | cons hd tl ih =>
    intro p h
    simp only [maxByCount] at h
    split at h
    · injection h with h
      exact h ▸ List.mem_cons_self ..
    · rename_i q hq
      split at h <;> injection h with h
      · exact List.mem_cons_of_mem _ (h ▸ ih hq)
      · exact h ▸ List.mem_cons_self ..

theorem choose_variable_spec {cs : List Clause} {a : Assignment} {v : Int}
    (h : choose_variable cs a = some v) :
    v ∈ occVarsF cs ∧ lookupA a v = none := by
  unfold choose_variable at h
  cases hmax : maxByCount (varCounts cs a []) with
  | none => rw [hmax] at h; exact absurd h (by simp)
  | some p =>
    rw [hmax] at h
    have h' : p.1 = v := by simpa using h
    have hp := maxByCount_mem hmax
    have hkey : v ∈ (varCounts cs a []).map Prod.fst := by
      rw [← h']
      exact List.mem_map_of_mem Prod.fst hp
    rcases mem_keys_varCounts hkey with hacc | hgood
    · exact absurd hacc (by simp)
    · exact hgood

theorem unit_propagate_spec : ∀ (fuel : Nat) (cs : List Clause)
    (a : Assignment) (st : Stats),
    unassignedIn (occVarsF cs) a < fuel →
    match unit_propagate fuel cs a st with
    | .timeout => False
    | .conflict a' _ =>
        unassignedIn (occVarsF cs) a' ≤ unassignedIn (occVarsF cs) a
    | .finished a' _ =>
        unassignedIn (occVarsF cs) a' ≤ unassignedIn (occVarsF cs) a := by
  intro fuel
  induction fuel with
  | zero => intro cs a st h; omega
  | succ f ih =>
    intro cs a st h
    simp only [unit_propagate]
    cases hfind : find_unit_clause cs a with
    | none => exact le_refl _
    | some l =>
      obtain ⟨hocc, hun⟩ := find_unit_clause_spec hfind
      dsimp only
      rw [hun]
      have hlt := unassignedIn_insert_lt hocc hun (decide (0 < l))
      have hih := ih cs (insertA a (varOf l) (decide (0 < l)))
        { st with unit_propagations := st.unit_propagations + 1 }
        (by omega)
      revert hih
      cases unit_propagate f cs (insertA a (varOf l) (decide (0 < l)))
          { st with unit_propagations := st.unit_propagations + 1 } with
      | timeout => exact fun hih => hih
      | conflict a' st' => intro hih; omega
      | finished a' st' => intro hih; omega

theorem dpll_no_timeout : ∀ (fuel : Nat) (cs : List Clause) (a : Assignment)
    (st : Stats), unassignedIn (occVarsF cs) a < fuel →
    dpll fuel cs a st ≠ DRes.timeout := by
  intro fuel
  induction fuel with
  | zero => intro cs a st h; omega
  | succ f ih =>
    intro cs a st h
    have hup := unit_propagate_spec (unassignedCount cs a + 1) cs a st
      (by unfold unassignedCount; omega)
    simp only [dpll]
    split
    · rename_i heq
      rw [heq] at hup
      exact hup.elim
    · simp
    · rename_i a' st' heq
      rw [heq] at hup
      split
      · simp
      · split
        · simp
        · split
          · rename_i p hp
            apply ih
            obtain ⟨ho, hu⟩ := find_pure_literal_spec hp
            have := unassignedIn_insert_lt ho hu (decide (0 < p))
            omega
          · split
            · simp
            · rename_i v hv
              obtain ⟨ho, hu⟩ := choose_variable_spec hv
              have h1 : unassignedIn (occVarsF cs) (insertA a' v true) < f := by
                have := unassignedIn_insert_lt ho hu true
                omega
              split
              · rename_i heq1
                exact absurd heq1 (ih cs _ _ h1)
              · simp
              · have h2 : unassignedIn (occVarsF cs)
                    (insertA (insertA a' v true) v false) < f := by
                  rw [unassignedIn_insert_assigned
                    (by rw [lookupA_insertA_self]; simp) false]
                  exact h1
                split
                · rename_i heq2
                  exact absurd heq2 (ih cs _ _ h2)
                · simp
                · simp

theorem dpll_solve_isSome (cs : List Clause) : (solve cs).isSome := by
  unfold solve
  split
  · rename_i heq
    refine absurd heq (dpll_no_timeout _ cs [] initStats ?_)
    unfold unassignedCount
    omega
  · simp

end SimpleDPLLSolver

namespace Backward

theorem tryLiterals_no_timeout {S : Finset Int} (cs : List Clause)
    (goNext : Assignment → List Nat →
      Stats → Option (Option Assignment × Stats))
    (a : Assignment) (idxs : List Nat) :
    ∀ (st : Stats) (c : Clause),
    (∀ l ∈ c, varOf l ∈ S) →
    (∀ (v : Int) (b : Bool) (st' : Stats), v ∈ S → lookupA a v = none →
      goNext (insertA a v b)
        (get_unsatisfied_clause_indices cs (insertA a v b) idxs) st' ≠
          none) →
    tryLiterals cs goNext a idxs st c ≠ none := by
  intro st c
  induction c generalizing st with
  | nil => intro _ _; simp [tryLiterals]
  | cons l ls ih =>
    intro hc hgo
    have hls : ∀ l' ∈ ls, varOf l' ∈ S :=
      fun l' hl' => hc l' (List.mem_cons_of_mem _ hl')
    simp only [tryLiterals]
    cases hlook : lookupA a (varOf l) with
    | some b =>
      dsimp only
      split <;> exact ih _ hls hgo
    | none =>
      have hcall := hgo (varOf l) (decide (0 < l)) st
        (hc l (List.mem_cons_self ..)) hlook
      dsimp only
      split
      · rename_i heq
        exact absurd heq hcall
      · simp
      · exact ih _ hls hgo

theorem findSolutionRec_no_timeout : ∀ (fuel : Nat) (cs : List Clause)
    (a : Assignment) (idxs : List Nat) (st : Stats),
    (∀ i ∈ idxs, i < cs.length) →
    unassignedIn (occVarsF cs) a < fuel →
    findSolutionRec fuel cs a idxs st ≠ none := by
  intro fuel
  induction fuel with
  | zero => intro cs a idxs st _ h; omega
  | succ f ih =>
    intro cs a idxs st hidx hm
    simp only [findSolutionRec]
    cases idxs with
    | nil => simp
    | cons i rest =>
      apply tryLiterals_no_timeout (S := occVarsF cs)
      · intro l hl
        have hi : i < cs.length := hidx i (List.mem_cons_self ..)
        have hget : cs.getD i [] ∈ cs := by
          rw [List.getD_eq_getElem _ _ hi]
          exact List.getElem_mem hi
        exact varOf_mem_occVarsF hget hl
      · intro v b st' hv hun
        apply ih
        · intro j hj
          exact hidx j (List.mem_of_mem_filter hj)
        · have := unassignedIn_insert_lt hv hun b
          omega

theorem backward_solve_isSome (n : Nat) (cs : List Clause) :
    (solve_3sat_backward n cs).isSome := by
  unfold solve_3sat_backward
  split
  · rename_i heq
    refine absurd heq (findSolutionRec_no_timeout _ cs [] _ _ ?_ ?_)
    · intro i hi
      exact List.mem_range.mp hi
    · rw [unassignedIn_empty]
      omega
  · simp
  · simp

end Backward

namespace GoalOriented

theorem make_heuristic_decision_var {v vf : Int} {tc fc : Bool}
    {tCnt fCnt factor : Nat} {valf : Bool}
    (h : make_heuristic_decision v tc fc tCnt fCnt factor =
      some (vf, valf)) : vf = v := by
  unfold make_heuristic_decision at h
  split_ifs at h <;> simp_all

theorem evaluate_remaining (v : Int) (val : Bool) (a : Assignment)
    (cs : List Clause) (idxs : List Nat) :
    (evaluate_variable_assignment v val a cs idxs).2.2 =
      get_unsatisfied_clause_indices cs (insertA a v val) idxs := rfl

theorem heuristicLoop_no_timeout {S : Finset Int} (cs : List Clause)
    (goNext : Assignment → TypeMap → List Nat → Stats →
      Option (Option (Assignment × TypeMap) × Stats))
    (a : Assignment) (ty : TypeMap) (idxs : List Nat) :
    ∀ (st : Stats) (vars : List Int),
    (∀ v ∈ vars, v ∈ S) →
    (∀ (v : Int) (b : Bool) (ty' : TypeMap) (st' : Stats), v ∈ S →
      lookupA a v = none →
      goNext (insertA a v b) ty'
        (get_unsatisfied_clause_indices cs (insertA a v b) idxs) st' ≠
          none) →
    heuristicLoop cs goNext a ty idxs st vars ≠ none := by
  intro st vars
  induction vars generalizing st with
  | nil => intro _ _; simp [heuristicLoop]
  | cons v vs ih =>
    intro hvars hgo
    have hvs : ∀ w ∈ vs, w ∈ S :=
      fun w hw => hvars w (List.mem_cons_of_mem _ hw)
    simp only [heuristicLoop]
    split
    · exact ih _ hvs hgo
    · rename_i hassigned
      have hun : lookupA a v = none := by
        cases hl : lookupA a v
        · rfl
        · rw [hl] at hassigned
          simp at hassigned
      cases hdec : make_heuristic_decision v
          (evaluate_variable_assignment v true a cs idxs).1
          (evaluate_variable_assignment v false a cs idxs).1
          (evaluate_variable_assignment v true a cs idxs).2.1
          (evaluate_variable_assignment v false a cs idxs).2.1
          heuristic_factor with
      | none => exact ih _ hvs hgo
      | some p =>
        obtain ⟨vf, valf⟩ := p
        have hvf : vf = v := make_heuristic_decision_var hdec
        subst hvf
        have hidxs : (if valf then
              (evaluate_variable_assignment vf true a cs idxs).2.2
            else (evaluate_variable_assignment vf false a cs idxs).2.2) =
            get_unsatisfied_clause_indices cs (insertA a vf valf) idxs := by
          cases valf <;> rfl
        dsimp only
        rw [hidxs]
        have hcall := hgo vf valf (insertT ty vf "Heuristic Set")
          { st with heuristic_choices_count := st.heuristic_choices_count + 1 }
          (hvars vf (List.mem_cons_self ..)) hun
        split
        · rename_i heq
          exact absurd heq hcall
        · simp
        · exact ih _ hvs hgo

theorem tryBranch_no_timeout {S : Finset Int} (cs : List Clause)
    (goNext : Assignment → TypeMap → List Nat → Stats →
      Option (Option (Assignment × TypeMap) × Stats))
    (a : Assignment) (ty : TypeMap) (idxs : List Nat) :
    ∀ (st : Stats) (c : Clause),
    (∀ l ∈ c, varOf l ∈ S) →
    (∀ (v : Int) (b : Bool) (ty' : TypeMap) (st' : Stats), v ∈ S →
      lookupA a v = none →
      goNext (insertA a v b) ty'
        (get_unsatisfied_clause_indices cs (insertA a v b) idxs) st' ≠
          none) →
    tryBranch cs goNext a ty idxs st c ≠ none := by
  intro st c
  induction c generalizing st with
  | nil => intro _ _; simp [tryBranch]
  | cons l ls ih =>
    intro hc hgo
    have hls : ∀ l' ∈ ls, varOf l' ∈ S :=
      fun l' hl' => hc l' (List.mem_cons_of_mem _ hl')
    simp only [tryBranch]
    split
    · exact ih _ hls hgo
    · rename_i hassigned
      have hun : lookupA a (varOf l) = none := by
        cases hl : lookupA a (varOf l)
        · rfl
        · rw [hl] at hassigned
          simp at hassigned
      split
      · exact ih _ hls hgo
      · have hcall := hgo (varOf l) (decide (0 < l))
          (insertT ty (varOf l) "Branch Set") st
          (hc l (List.mem_cons_self ..)) hun
        split
        · rename_i heq
          exact absurd heq hcall
        · simp
        · exact ih _ hls hgo

theorem scanVars_mem_goalVarSet {n : Nat} {cs : List Clause} {v : Int}
    (h : v ∈ scanVars n) : v ∈ goalVarSet n cs := by
  unfold goalVarSet
  rw [Finset.mem_union]
  exact Or.inr (List.mem_toFinset.mpr h)

theorem occ_mem_goalVarSet {n : Nat} {cs : List Clause} {v : Int}
    (h : v ∈ occVarsF cs) : v ∈ goalVarSet n cs := by
  unfold goalVarSet
  rw [Finset.mem_union]
  exact Or.inl h

theorem recursiveSolve_no_timeout (n : Nat) (cs : List Clause) :
    ∀ (fuel : Nat) (a : Assignment) (ty : TypeMap) (idxs : List Nat)
    (st : Stats),
    (∀ i ∈ idxs, i < cs.length) →
    unassignedIn (goalVarSet n cs) a < fuel →
    recursiveSolve fuel n cs a ty idxs st ≠ none := by
  intro fuel
  induction fuel with
  | zero => intro a ty idxs st _ h; omega
  | succ f ih =>
    intro a ty idxs st hidx hm
    simp only [recursiveSolve]
    cases idxs with
    | nil => simp
    | cons i rest =>
      have hgo : ∀ (v : Int) (b : Bool) (ty' : TypeMap) (st' : Stats),
          v ∈ goalVarSet n cs → lookupA a v = none →
          recursiveSolve f n cs (insertA a v b) ty'
            (get_unsatisfied_clause_indices cs (insertA a v b) (i :: rest))
            st' ≠ none := by
        intro v b ty' st' hv hun
        apply ih
        · intro j hj
          exact hidx j (List.mem_of_mem_filter hj)
        · have := unassignedIn_insert_lt hv hun b
          omega
      have hloop := heuristicLoop_no_timeout cs
        (fun a' ty' idxs' st' => recursiveSolve f n cs a' ty' idxs' st') a ty
        (i :: rest)
        { st with recursive_calls := st.recursive_calls + 1 } (scanVars n)
        (fun v hv => scanVars_mem_goalVarSet hv) hgo
      dsimp only
      split
      · rename_i heq
        exact absurd heq hloop
      · simp
      · apply tryBranch_no_timeout (S := goalVarSet n cs)
        · intro l hl
          have hi : i < cs.length := hidx i (List.mem_cons_self ..)
          have hget : cs.getD i [] ∈ cs := by
            rw [List.getD_eq_getElem _ _ hi]
            exact List.getElem_mem hi
          exact occ_mem_goalVarSet (varOf_mem_occVarsF hget hl)
        · exact hgo

theorem solveReport_isSome (n : Nat) (cs : List Clause) :
    (solveReport n cs).isSome := by
  unfold solveReport
  split
  · rename_i heq
    refine absurd heq (recursiveSolve_no_timeout n cs _ [] [] _ _ ?_ ?_)
    · intro i hi
      exact List.mem_range.mp hi
    · rw [unassignedIn_empty]
      omega
  · simp
  · simp

end GoalOriented

theorem occVarsF_subset_Icc {n : Nat} {cs : List Clause}
    (h : ∀ c ∈ cs, ∀ l ∈ c, l ≠ 0 ∧ l.natAbs ≤ n) :
    occVarsF cs ⊆ Finset.Icc (1 : Int) n := by
  intro v hv
  rw [mem_occVarsF] at hv
  obtain ⟨c, hc, l, hl, rfl⟩ := hv
  obtain ⟨hnz, hle⟩ := h c hc l hl
  rw [Finset.mem_Icc]
  unfold varOf
  omega

theorem card_Icc_one_int (n : Nat) : (Finset.Icc (1 : Int) n).card = n := by
  rw [Int.card_Icc]
  omega

theorem occVarsF_card_le {n : Nat} {cs : List Clause}
    (h : ∀ c ∈ cs, ∀ l ∈ c, l ≠ 0 ∧ l.natAbs ≤ n) :
    (occVarsF cs).card ≤ n := by
  calc (occVarsF cs).card ≤ (Finset.Icc (1 : Int) n).card :=
        Finset.card_le_card (occVarsF_subset_Icc h)
    _ = n := card_Icc_one_int n

theorem goalVarSet_card_le {n : Nat} {cs : List Clause}
    (h : ∀ c ∈ cs, ∀ l ∈ c, l ≠ 0 ∧ l.natAbs ≤ n) :
    (GoalOriented.goalVarSet n cs).card ≤ n := by
  have hsub : GoalOriented.goalVarSet n cs ⊆ Finset.Icc (1 : Int) n := by
    unfold GoalOriented.goalVarSet
    apply Finset.union_subset (occVarsF_subset_Icc h)
    intro v hv
    rw [List.mem_toFinset] at hv
    unfold scanVars at hv
    rw [List.mem_map] at hv
    obtain ⟨i, hi, rfl⟩ := hv
    rw [List.mem_range] at hi
    rw [Finset.mem_Icc]
    omega
  calc (GoalOriented.goalVarSet n cs).card ≤
        (Finset.Icc (1 : Int) n).card := Finset.card_le_card hsub
    _ = n := card_Icc_one_int n

/-- C8 — Termination with bounded recursion depth: each top-level solve of
the three solvers terminates on every Formula — the fuel the wrappers
derive from the formula's own variable set never runs out, because every
propagation, heuristic and branch step assigns a previously-unassigned
variable before recursing; and under the data model's declared contract
(nonzero literals whose variables stay within num_variables), fuel
num_variables + 1 already suffices for each recursion started at its
top-level state, so the recursion depth is bounded by the number of
variables. -/
theorem C8_termination_depth_bound (n : Nat) (cs : List Clause) :
    ((SimpleDPLLSolver.solve cs).isSome ∧
      (Backward.solve_3sat_backward n cs).isSome ∧
      (GoalOriented.solveReport n cs).isSome) ∧
    ((∀ c ∈ cs, ∀ l ∈ c, l ≠ 0 ∧ l.natAbs ≤ n) →
      SimpleDPLLSolver.dpll (n + 1) cs [] SimpleDPLLSolver.initStats ≠
          SimpleDPLLSolver.DRes.timeout ∧
        Backward.findSolutionRec (n + 1) cs [] (List.range cs.length)
          ⟨0, 0, 0, [], ""⟩ ≠ none ∧
        GoalOriented.recursiveSolve (n + 1) n cs [] []
          (List.range cs.length) ⟨0, 0, 0, 0, []⟩ ≠ none) := by
  refine ⟨⟨SimpleDPLLSolver.dpll_solve_isSome cs, Backward.backward_solve_isSome n cs,
    GoalOriented.solveReport_isSome n cs⟩, fun h => ⟨?_, ?_, ?_⟩⟩
  · apply SimpleDPLLSolver.dpll_no_timeout
    rw [unassignedIn_empty]
    have := occVarsF_card_le h
    omega
  · apply Backward.findSolutionRec_no_timeout
    · intro i hi
      exact List.mem_range.mp hi
    · rw [unassignedIn_empty]
      have := occVarsF_card_le h
      omega
  · apply GoalOriented.recursiveSolve_no_timeout
    · intro i hi
      exact List.mem_range.mp hi
    · rw [unassignedIn_empty]
      have := goalVarSet_card_le h
      omega

/-- Witness for C8 at the spec's scenario formula with num_variables = 3:
fuel 4 suffices for all three recursions. -/
theorem C8_termination_depth_bound_witness :
    SimpleDPLLSolver.dpll 4 [[1, 2], [-1, 3], [-2, -3]] []
        SimpleDPLLSolver.initStats ≠ SimpleDPLLSolver.DRes.timeout ∧
      Backward.findSolutionRec 4 [[1, 2], [-1, 3], [-2, -3]] []
        (List.range 3) ⟨0, 0, 0, [], ""⟩ ≠ none ∧
      GoalOriented.recursiveSolve 4 3 [[1, 2], [-1, 3], [-2, -3]] [] []
        (List.range 3) ⟨0, 0, 0, 0, []⟩ ≠ none :=
  (C8_termination_depth_bound 3 [[1, 2], [-1, 3], [-2, -3]]).2 (by decide)

/-- C4 amended — solve-result contract as the code implements it: on every
input the backward solver returns its (assignment-or-none, statistics)
pair, the DPLL solver returns its (flag, assignment-or-none, statistics)
triple, and the goal-oriented solver computes a full report (status,
solution, assignment types, statistics) for the markdown writer but
returns no value at all — None on every invocation, so neither assignment
nor statistics reach the goal-oriented caller; in all three,
unsatisfiability is a returned value, never an exception. -/
theorem C4_solve_result_contract (n : Nat) (cs : List Clause) :
    (∃ r, Backward.solve_3sat_backward n cs = some r) ∧
    (∃ r, SimpleDPLLSolver.solve cs = some r) ∧
    (∃ rep, GoalOriented.solveReport n cs = some rep) ∧
    GoalOriented.solve_3sat_goal_oriented n cs = none := by
  refine ⟨?_, ?_, ?_, rfl⟩
  · exact Option.isSome_iff_exists.mp (Backward.backward_solve_isSome n cs)
  · exact Option.isSome_iff_exists.mp (SimpleDPLLSolver.dpll_solve_isSome cs)
  · exact Option.isSome_iff_exists.mp (GoalOriented.solveReport_isSome n cs)
